import Mathlib

/-!
Verification development for the puzzgen repository (jigsaw puzzle SVG
generator).  The Rust sources `src/geom.rs` and `src/puzz.rs` are shallowly
embedded below: `f32` coordinates are modelled as real numbers, the random
number generator is modelled as an explicit stream of draws, and the
nondeterministic iteration order of the `HashSet` frontier in
`Puzzle::gen_edges` is modelled by an arbitrary choice function `pick`.
The `HashMap` edge table is modelled as the association list of insertions
in emission order (every key is inserted at most once, as proved below).
-/

namespace Puzzgen

/-- Model of `geom.rs` `Point`: a pair of `f32` coordinates, embedded as
real numbers. -/
@[ext]
structure Point where
  x : ℝ
  y : ℝ

/-- Model of the randomness source (`rand::Rng`).  The generator is an
opaque stream of draws: `reals` yields the unit draws backing
`gen_range(lo, hi)` (a uniform draw in `[lo, hi)` is modelled as
`lo + u * (hi - lo)` for the next unit draw `u`), and `bools` yields the
draws backing `gen::<bool>()`.  `rpos` and `bpos` are the stream
positions. -/
structure RngState where
  reals : ℕ → ℝ
  bools : ℕ → Bool
  rpos : ℕ
  bpos : ℕ

/-- Model of `rand::Rng::gen_range(lo, hi)`: consume one unit draw. -/
noncomputable def RngState.genRange (rng : RngState) (lo hi : ℝ) : ℝ × RngState :=
  (lo + rng.reals rng.rpos * (hi - lo), { rng with rpos := rng.rpos + 1 })

/-- Model of `rand::Rng::gen::<bool>()`: consume one boolean draw. -/
def RngState.genBool (rng : RngState) : Bool × RngState :=
  (rng.bools rng.bpos, { rng with bpos := rng.bpos + 1 })

/-- Model of `atan2` on `f32` (`rise.atan2(run)`): the argument of the
complex number `run + rise * I`, with the usual convention
`atan2 0 0 = 0`. -/
noncomputable def atan2 (y x : ℝ) : ℝ :=
  Complex.arg { re := x, im := y }

/-- Model of `Point::dist` (`((self.y - other.y).powf(2.0) + (self.x -
other.x).powf(2.0)).sqrt()`). -/
noncomputable def Point.dist (p other : Point) : ℝ :=
  Real.sqrt ((p.y - other.y) ^ 2 + (p.x - other.x) ^ 2)

/-- Model of `Point::jitter`: perturb each coordinate by an independent
`gen_range(-max, max)` draw (x first, then y, matching the source
order). -/
noncomputable def Point.jitter (p : Point) (m : ℝ) (rng : RngState) : Point × RngState :=
  let dx := rng.genRange (-m) m
  let dy := dx.2.genRange (-m) m
  (⟨p.x + dx.1, p.y + dy.1⟩, dy.2)

/-- Model of `Point::mirror_x`: negate the y coordinate. -/
noncomputable def Point.mirror_x (p : Point) : Point :=
  ⟨p.x, -p.y⟩

/-- Model of `Point::scale`. -/
noncomputable def Point.scale (p : Point) (x_factor y_factor : ℝ) : Point :=
  ⟨p.x * x_factor, p.y * y_factor⟩

/-- Model of `Point::translate_to`. -/
noncomputable def Point.translate_to (p pt : Point) : Point :=
  ⟨p.x + pt.x, p.y + pt.y⟩

/-- Model of `Point::rotate_by`. -/
noncomputable def Point.rotate_by (p : Point) (radians : ℝ) : Point :=
  ⟨p.x * Real.cos radians - p.y * Real.sin radians,
   p.x * Real.sin radians + p.y * Real.cos radians⟩

/-- Model of `puzz.rs` `VertexIndex`: a (row, col) lattice position. -/
@[ext]
structure VertexIndex where
  row : ℕ
  col : ℕ
deriving DecidableEq

/-- The derived Rust `Ord` on `VertexIndex` is lexicographic in field
order (row, then col); `vle a b` decides `a <= b` in that order. -/
def vle (a b : VertexIndex) : Bool :=
  decide (a.row < b.row ∨ (a.row = b.row ∧ a.col ≤ b.col))

/-- Model of `std::cmp::min` on `VertexIndex` (first argument on ties). -/
def vmin (a b : VertexIndex) : VertexIndex :=
  if vle a b then a else b

/-- Model of `std::cmp::max` on `VertexIndex` (second argument on ties). -/
def vmax (a b : VertexIndex) : VertexIndex :=
  if vle a b then b else a

/-- The canonical edge key built by `Puzzle::add_edge`:
`(min(vi1, vi2), max(vi1, vi2))`. -/
def canonPair (a b : VertexIndex) : VertexIndex × VertexIndex :=
  (vmin a b, vmax a b)

/-- A linear order on `VertexIndex` (lexicographic via `Lex (ℕ × ℕ)`),
used only to provide one concrete frontier choice function
(`pickMin`). -/
instance : LinearOrder VertexIndex :=
  LinearOrder.lift' (fun v => toLex (v.row, v.col)) (by
    intro a b hab
    ext
    · exact congrArg (fun p => (ofLex p).1) hab
    · exact congrArg (fun p => (ofLex p).2) hab)

/-- Model of `EdgePolarity`. -/
inductive EdgePolarity where
  | Left
  | Right
deriving DecidableEq

/-- Model of `EdgeDesc`: the tab's polarity plus six control points. -/
@[ext]
structure EdgeDesc where
  polarity : EdgePolarity
  nubbin_start : Point
  nubbin_end : Point
  start_control : Point
  left_nubbin_control : Point
  right_nubbin_control : Point
  end_control : Point

/-- Model of the `Edge` enum: `Bumpless` (a plain segment) or `Bumpy`
(a tabbed edge carrying an `EdgeDesc`). -/
inductive Edge where
  | Bumpless
  | Bumpy (desc : EdgeDesc)

/-- Model of `EdgeDesc::unit_edge`: the canonical unit-frame template. -/
noncomputable def EdgeDesc.unit_edge : EdgeDesc where
  polarity := .Left
  nubbin_start := ⟨0.4, 0.1⟩
  nubbin_end := ⟨0.6, 0.1⟩
  start_control := ⟨0.2, 0⟩
  left_nubbin_control := ⟨0.5, -0.1⟩
  right_nubbin_control := ⟨0.7, 0.3⟩
  end_control := ⟨0.8, 0⟩

/-- Model of `Edge::plain`. -/
def Edge.plain : Edge := .Bumpless

/-- Model of `Edge::nubbin`. -/
noncomputable def Edge.nubbin : Edge := .Bumpy EdgeDesc.unit_edge

/-- Model of `Edge::mirror_x`: negate the y coordinate of all six control
points; the polarity field is not touched. -/
noncomputable def Edge.mirror_x : Edge → Edge
  | .Bumpless => .Bumpless
  | .Bumpy desc => .Bumpy { desc with
      nubbin_start := desc.nubbin_start.mirror_x
      nubbin_end := desc.nubbin_end.mirror_x
      start_control := desc.start_control.mirror_x
      end_control := desc.end_control.mirror_x
      left_nubbin_control := desc.left_nubbin_control.mirror_x
      right_nubbin_control := desc.right_nubbin_control.mirror_x }

/-- Model of `Edge::jitter`: perturb the two nubbin endpoints at half
magnitude and the four curve controls at full magnitude, consuming rng
draws in source order (nubbin_start, nubbin_end, start_control,
end_control, left_nubbin_control, right_nubbin_control). -/
noncomputable def Edge.jitter (e : Edge) (m : ℝ) (rng : RngState) : Edge × RngState :=
  match e with
  | .Bumpless => (.Bumpless, rng)
  | .Bumpy desc =>
    let a := desc.nubbin_start.jitter (m / 2) rng
    let b := desc.nubbin_end.jitter (m / 2) a.2
    let c := desc.start_control.jitter m b.2
    let d := desc.end_control.jitter m c.2
    let e1 := desc.left_nubbin_control.jitter m d.2
    let f := desc.right_nubbin_control.jitter m e1.2
    (.Bumpy { desc with
        nubbin_start := a.1
        nubbin_end := b.1
        start_control := c.1
        end_control := d.1
        left_nubbin_control := e1.1
        right_nubbin_control := f.1 }, f.2)

/-- Model of `Edge::transform_point`: scale by the segment length, rotate
by its orientation, translate onto `start`. -/
noncomputable def Edge.transform_point (pt start stop : Point) : Point :=
  let rise := stop.y - start.y
  let run := stop.x - start.x
  let theta := atan2 rise run
  let dist := start.dist stop
  ((pt.scale dist dist).rotate_by theta).translate_to start

/-- Model of `Edge::transform`: apply `transform_point` to all six control
points of a tabbed edge. -/
noncomputable def Edge.transform : Edge → Point → Point → Edge
  | .Bumpless, _, _ => .Bumpless
  | .Bumpy desc, start, stop => .Bumpy { desc with
      nubbin_start := Edge.transform_point desc.nubbin_start start stop
      nubbin_end := Edge.transform_point desc.nubbin_end start stop
      start_control := Edge.transform_point desc.start_control start stop
      left_nubbin_control := Edge.transform_point desc.left_nubbin_control start stop
      right_nubbin_control := Edge.transform_point desc.right_nubbin_control start stop
      end_control := Edge.transform_point desc.end_control start stop }

/-- Model of `Edge::svg`, parameterised by `fmt`, the rendering of an
`f32` by Rust's `Display` (which the embedding does not reproduce). -/
noncomputable def Edge.svg (fmt : ℝ → String) (e : Edge) (start stop : Point) : String :=
  let d := fun (pt : Point) => fmt pt.x ++ " " ++ fmt pt.y
  match e with
  | .Bumpless => "M " ++ d start ++ " L " ++ d stop ++ " "
  | .Bumpy desc =>
      "M " ++ d start ++ " C " ++ d desc.start_control ++ " " ++
      d desc.left_nubbin_control ++ " " ++ d desc.nubbin_start ++ " S " ++
      d desc.right_nubbin_control ++ " " ++ d desc.nubbin_end ++ "  " ++
      d desc.end_control ++ " " ++ d stop ++ " "

/-- Model of the `Builder` configuration record. -/
structure Builder where
  x_mm : ℝ
  y_mm : ℝ
  x_pieces : ℕ
  y_pieces : ℕ

/-- One edge-table entry: the canonical key with its `Edge` value. -/
abbrev Entry := (VertexIndex × VertexIndex) × Edge

/-- Model of `Puzzle::index_of_vertex`. -/
def index_of_vertex (b : Builder) (vi : VertexIndex) : ℕ :=
  vi.row * (b.x_pieces + 1) + vi.col

/-- Model of `Puzzle::is_edge_vertex`. -/
def is_edge_vertex (b : Builder) (vi : VertexIndex) : Bool :=
  decide (vi.row = 0 ∨ vi.row = b.y_pieces ∨ vi.col = 0 ∨ vi.col = b.x_pieces)

/-- Model of `Puzzle::neighbors`: the grid-adjacent vertices of `vi`, in
source push order (up, down, left, right). -/
def neighbors (b : Builder) (vi : VertexIndex) : List VertexIndex :=
  (if 0 < vi.row then [⟨vi.row - 1, vi.col⟩] else []) ++
  (if vi.row < b.y_pieces then [⟨vi.row + 1, vi.col⟩] else []) ++
  (if 0 < vi.col then [⟨vi.row, vi.col - 1⟩] else []) ++
  (if vi.col < b.x_pieces then [⟨vi.row, vi.col + 1⟩] else [])

/-- Model of `Puzzle::gen_vertices`: the vertex table in row-major push
order. -/
noncomputable def gen_vertices (b : Builder) : List Point :=
  let piece_width := b.x_mm / (b.x_pieces : ℝ)
  let piece_height := b.y_mm / (b.y_pieces : ℝ)
  (List.range (b.y_pieces + 1)).flatMap fun (y : ℕ) =>
    (List.range (b.x_pieces + 1)).map fun (x : ℕ) =>
      ⟨(x : ℝ) * piece_width, (y : ℝ) * piece_height⟩

/-- Model of `Puzzle::add_edge`: canonicalise the key, classify the edge
by `is_edge_vertex`, jitter with the hard-coded magnitude `0.06`, mirror
with probability one half, and transform onto the resolved segment. -/
noncomputable def add_edge (b : Builder) (vertices : List Point) (rng : RngState)
    (vi1 vi2 : VertexIndex) : Entry × RngState :=
  let v1 := vmin vi1 vi2
  let v2 := vmax vi1 vi2
  let isAlongEdge := is_edge_vertex b vi1 && is_edge_vertex b vi2
  let e0 := if isAlongEdge then Edge.plain else Edge.nubbin
  let j := e0.jitter 0.06 rng
  let g := j.2.genBool
  let e2 := if g.1 then j.1.mirror_x else j.1
  let start := vertices.getD (index_of_vertex b v1) ⟨0, 0⟩
  let stop := vertices.getD (index_of_vertex b v2) ⟨0, 0⟩
  (((v1, v2), e2.transform start stop), g.2)

/-- Model of the `while !todo.is_empty()` loop of `Puzzle::gen_edges`.
`pick` models the arbitrary element returned by `todo.iter().next()`
(indexed by the remaining fuel so that the schedule may vary from
iteration to iteration), and the fuel bounds the number of iterations;
the correctness theorems show that fuel `(x_pieces+1)*(y_pieces+1)`
always drains the frontier. -/
noncomputable def gen_edges_aux (b : Builder) (vertices : List Point)
    (pick : ℕ → (s : Finset VertexIndex) → s.Nonempty → VertexIndex) :
    ℕ → Finset VertexIndex → Finset VertexIndex → List Entry → RngState →
    Finset VertexIndex × List Entry × RngState
  | 0, todo, _, em, rng => (todo, em, rng)
  | fuel + 1, todo, done, em, rng =>
    if h : todo.Nonempty then
      let current := pick (fuel + 1) todo h
      let ns := (neighbors b current).filter fun w => decide (w ∉ done)
      let folded := ns.foldl (fun acc w =>
        let r := add_edge b vertices acc.2 current w
        (acc.1 ++ [r.1], r.2)) (em, rng)
      gen_edges_aux b vertices pick fuel ((todo.erase current) ∪ ns.toFinset)
        (insert current done) folded.1 folded.2
    else (todo, em, rng)

/-- Model of `Puzzle::gen_edges`: seed the frontier with vertex (0,0) and
run the loop. -/
noncomputable def gen_edges (b : Builder) (vertices : List Point)
    (pick : ℕ → (s : Finset VertexIndex) → s.Nonempty → VertexIndex)
    (rng : RngState) : Finset VertexIndex × List Entry × RngState :=
  gen_edges_aux b vertices pick ((b.x_pieces + 1) * (b.y_pieces + 1))
    {(⟨0, 0⟩ : VertexIndex)} ∅ [] rng

/-- Model of the `Puzzle` aggregate.  The `HashMap` edge table is kept as
the association list of insertions in emission order. -/
structure Puzzle where
  x_mm : ℝ
  y_mm : ℝ
  x_pieces : ℕ
  y_pieces : ℕ
  vertices : List Point
  edges : List Entry

/-- Model of `Puzzle::build`.  The Rust function takes only the builder:
it obtains its randomness source from the ambient thread-local generator
(`rand::thread_rng()`), modelled here by the explicit `rng` argument, and
the `HashSet` frontier iteration order is modelled by `pick`.  No
validation of the configuration is performed. -/
noncomputable def Puzzle.build (b : Builder)
    (pick : ℕ → (s : Finset VertexIndex) → s.Nonempty → VertexIndex)
    (rng : RngState) : Puzzle :=
  let vertices := gen_vertices b
  let r := gen_edges b vertices pick rng
  ⟨b.x_mm, b.y_mm, b.x_pieces, b.y_pieces, vertices, r.2.1⟩

/-- One concrete frontier schedule: always remove the least vertex. -/
def pickMin : ℕ → (s : Finset VertexIndex) → s.Nonempty → VertexIndex :=
  fun _ s h => s.min' h

/-- A concrete randomness stream: every unit draw is 1/2 (so every
`gen_range(-m, m)` draw is 0) and every boolean draw is false. -/
noncomputable def constRng : RngState :=
  ⟨fun _ => 1 / 2, fun _ => false, 0, 0⟩

/-- The string written for one edge-table entry by the loop of
`Puzzle::to_svg`: the edge's path commands (with its endpoints resolved
through the vertex table) followed by a newline. -/
noncomputable def edge_svg_line (fmt : ℝ → String) (b : Builder)
    (vertices : List Point) (e : Entry) : String :=
  e.2.svg fmt (vertices.getD (index_of_vertex b e.1.1) ⟨0, 0⟩)
    (vertices.getD (index_of_vertex b e.1.2) ⟨0, 0⟩) ++ "\n"

/-- Model of `Puzzle::to_svg`, parameterised by the `f32` formatter
`fmt`.  Iterates the edge table in stored order. -/
noncomputable def Puzzle.to_svg (fmt : ℝ → String) (p : Puzzle) : String :=
  let b : Builder := ⟨p.x_mm, p.y_mm, p.x_pieces, p.y_pieces⟩
  let svg0 := "<svg xmlns=\"http://www.w3.org/2000/svg\" version=\"1.0\" "
  let svg1 := svg0 ++ ("viewBox=\"0 0 " ++ fmt p.x_mm ++ " " ++ fmt p.y_mm ++ "\" ")
  let svg2 := svg1 ++ "style=\"margin: 1em;\" "
  let svg3 := svg2 ++ ("width=\"" ++ fmt p.x_mm ++ "mm\" height=\"" ++ fmt p.y_mm ++ "mm\" ")
  let svg4 := svg3 ++ ">\n"
  let svg5 := svg4 ++ "<path fill=\"none\" stroke=\"black\" stroke-width=\"0.1\" d=\""
  let svg6 := p.edges.foldl (fun acc e =>
    acc ++ edge_svg_line fmt b p.vertices e) svg5
  svg6 ++ "\"></path>" ++ "\n" ++ "</svg>"

/-! ### Combinatorial description of the grid and its edge set -/

/-- The set of lattice vertices of the grid: rows `0..=y_pieces`, columns
`0..=x_pieces`. -/
def gridVertices (b : Builder) : Finset VertexIndex :=
  (Finset.range (b.y_pieces + 1) ×ˢ Finset.range (b.x_pieces + 1)).image fun p => ⟨p.1, p.2⟩

/-- The canonical keys of all horizontal grid edges. -/
def horizPairs (b : Builder) : Finset (VertexIndex × VertexIndex) :=
  (Finset.range (b.y_pieces + 1) ×ˢ Finset.range b.x_pieces).image
    fun p => (⟨p.1, p.2⟩, ⟨p.1, p.2 + 1⟩)

/-- The canonical keys of all vertical grid edges. -/
def vertPairs (b : Builder) : Finset (VertexIndex × VertexIndex) :=
  (Finset.range b.y_pieces ×ˢ Finset.range (b.x_pieces + 1)).image
    fun p => (⟨p.1, p.2⟩, ⟨p.1 + 1, p.2⟩)

/-- The canonical keys of all grid edges: every pair of grid-adjacent
vertices, written lower vertex first. -/
def adjPairs (b : Builder) : Finset (VertexIndex × VertexIndex) :=
  horizPairs b ∪ vertPairs b

lemma mem_gridVertices {b : Builder} {v : VertexIndex} :
    v ∈ gridVertices b ↔ v.row ≤ b.y_pieces ∧ v.col ≤ b.x_pieces := by
  constructor
  · rintro hv
    simp only [gridVertices, Finset.mem_image, Finset.mem_product, Finset.mem_range] at hv
    obtain ⟨p, ⟨h1, h2⟩, rfl⟩ := hv
    exact ⟨Nat.lt_succ_iff.mp h1, Nat.lt_succ_iff.mp h2⟩
  · rintro ⟨h1, h2⟩
    simp only [gridVertices, Finset.mem_image, Finset.mem_product, Finset.mem_range]
    exact ⟨(v.row, v.col), ⟨Nat.lt_succ_iff.mpr h1, Nat.lt_succ_iff.mpr h2⟩, rfl⟩

lemma card_gridVertices (b : Builder) :
    (gridVertices b).card = (b.y_pieces + 1) * (b.x_pieces + 1) := by
  rw [gridVertices, Finset.card_image_of_injective _ (fun p q h => ?_),
      Finset.card_product, Finset.card_range, Finset.card_range]
  have h1 := congrArg VertexIndex.row h
  have h2 := congrArg VertexIndex.col h
  exact Prod.ext h1 h2

lemma mem_horizPairs {b : Builder} {e : VertexIndex × VertexIndex} :
    e ∈ horizPairs b ↔
      ∃ r c, r ≤ b.y_pieces ∧ c < b.x_pieces ∧ e = (⟨r, c⟩, ⟨r, c + 1⟩) := by
  simp only [horizPairs, Finset.mem_image, Finset.mem_product, Finset.mem_range]
  constructor
  · rintro ⟨p, ⟨h1, h2⟩, rfl⟩
    exact ⟨p.1, p.2, Nat.lt_succ_iff.mp h1, h2, rfl⟩
  · rintro ⟨r, c, h1, h2, rfl⟩
    exact ⟨(r, c), ⟨Nat.lt_succ_iff.mpr h1, h2⟩, rfl⟩

lemma mem_vertPairs {b : Builder} {e : VertexIndex × VertexIndex} :
    e ∈ vertPairs b ↔
      ∃ r c, r < b.y_pieces ∧ c ≤ b.x_pieces ∧ e = (⟨r, c⟩, ⟨r + 1, c⟩) := by
  simp only [vertPairs, Finset.mem_image, Finset.mem_product, Finset.mem_range]
  constructor
  · rintro ⟨p, ⟨h1, h2⟩, rfl⟩
    exact ⟨p.1, p.2, h1, Nat.lt_succ_iff.mp h2, rfl⟩
  · rintro ⟨r, c, h1, h2, rfl⟩
    exact ⟨(r, c), ⟨h1, Nat.lt_succ_iff.mpr h2⟩, rfl⟩

lemma card_horizPairs (b : Builder) :
    (horizPairs b).card = (b.y_pieces + 1) * b.x_pieces := by
  rw [horizPairs, Finset.card_image_of_injective _ (fun p q h => ?_),
      Finset.card_product, Finset.card_range, Finset.card_range]
  have h1 := congrArg (fun z => (Prod.fst z).row) h
  have h2 := congrArg (fun z => (Prod.fst z).col) h
  exact Prod.ext h1 h2

lemma card_vertPairs (b : Builder) :
    (vertPairs b).card = b.y_pieces * (b.x_pieces + 1) := by
  rw [vertPairs, Finset.card_image_of_injective _ (fun p q h => ?_),
      Finset.card_product, Finset.card_range, Finset.card_range]
  have h1 := congrArg (fun z => (Prod.fst z).row) h
  have h2 := congrArg (fun z => (Prod.fst z).col) h
  exact Prod.ext h1 h2

lemma horiz_vert_disjoint (b : Builder) : Disjoint (horizPairs b) (vertPairs b) := by
  rw [Finset.disjoint_left]
  intro e he hv
  obtain ⟨r, c, -, -, rfl⟩ := mem_horizPairs.mp he
  obtain ⟨r', c', -, -, h⟩ := mem_vertPairs.mp hv
  have h1 : r = r' := congrArg (fun z => (Prod.fst z).row) h
  have h2 : r = r' + 1 := congrArg (fun z => (Prod.snd z).row) h
  omega

lemma card_adjPairs (b : Builder) :
    (adjPairs b).card =
      (b.x_pieces + 1) * b.y_pieces + b.x_pieces * (b.y_pieces + 1) := by
  rw [adjPairs, Finset.card_union_of_disjoint (horiz_vert_disjoint b),
      card_horizPairs, card_vertPairs]
  ring

/-! ### Elementary facts about the canonical order and keys -/

lemma vle_iff {a b : VertexIndex} :
    vle a b = true ↔ a.row < b.row ∨ (a.row = b.row ∧ a.col ≤ b.col) := by
  simp [vle]

lemma vle_total (a b : VertexIndex) : vle a b = true ∨ vle b a = true := by
  simp only [vle_iff]
  omega

lemma vle_antisymm {a b : VertexIndex} (h1 : vle a b = true) (h2 : vle b a = true) :
    a = b := by
  rw [vle_iff] at h1 h2
  ext <;> omega

lemma canonPair_of_vle {a b : VertexIndex} (h : vle a b = true) :
    canonPair a b = (a, b) := by
  simp [canonPair, vmin, vmax, h]

lemma canonPair_comm (a b : VertexIndex) : canonPair a b = canonPair b a := by
  cases h1 : vle a b <;> cases h2 : vle b a
  · rcases vle_total a b with h | h
    · rw [h] at h1; cases h1
    · rw [h] at h2; cases h2
  · simp [canonPair, vmin, vmax, h1, h2]
  · simp [canonPair, vmin, vmax, h1, h2]
  · rw [vle_antisymm h1 h2]

lemma canonPair_cases (a b : VertexIndex) :
    canonPair a b = (a, b) ∨ canonPair a b = (b, a) := by
  cases h : vle a b
  · right; simp [canonPair, vmin, vmax, h]
  · left; simp [canonPair, vmin, vmax, h]

lemma vle_canonPair (a b : VertexIndex) :
    vle (canonPair a b).1 (canonPair a b).2 = true := by
  cases h : vle a b
  · rcases vle_total a b with h' | h'
    · rw [h'] at h; cases h
    · simp [canonPair, vmin, vmax, h, h']
  · simp [canonPair, vmin, vmax, h]

lemma canonPair_inj {v w1 w2 : VertexIndex} (hne1 : w1 ≠ v) (hne2 : w2 ≠ v)
    (h : canonPair v w1 = canonPair v w2) : w1 = w2 := by
  rcases canonPair_cases v w1 with h1 | h1 <;>
    rcases canonPair_cases v w2 with h2 | h2 <;>
      rw [h1, h2] at h
  · exact congrArg Prod.snd h
  · have h3 : v = w2 := congrArg Prod.fst h
    exact absurd h3.symm hne2
  · have h3 : w1 = v := congrArg Prod.fst h
    exact absurd h3 hne1
  · exact congrArg Prod.fst h

/-! ### Facts about `neighbors` -/

lemma mem_neighbors {b : Builder} {v w : VertexIndex} :
    w ∈ neighbors b v ↔
      (0 < v.row ∧ w = ⟨v.row - 1, v.col⟩) ∨
      (v.row < b.y_pieces ∧ w = ⟨v.row + 1, v.col⟩) ∨
      (0 < v.col ∧ w = ⟨v.row, v.col - 1⟩) ∨
      (v.col < b.x_pieces ∧ w = ⟨v.row, v.col + 1⟩) := by
  unfold neighbors
  split_ifs <;> simp [*]

lemma neighbors_nodup (b : Builder) (v : VertexIndex) : (neighbors b v).Nodup := by
  unfold neighbors
  split_ifs <;>
    simp [List.Nodup, List.pairwise_append, VertexIndex.mk.injEq] <;>
      omega

lemma self_not_mem_neighbors (b : Builder) (v : VertexIndex) : v ∉ neighbors b v := by
  intro h
  rcases mem_neighbors.mp h with ⟨h1, h2⟩ | ⟨h1, h2⟩ | ⟨h1, h2⟩ | ⟨h1, h2⟩
  · have h3 : v.row = v.row - 1 := congrArg VertexIndex.row h2
    omega
  · have h3 : v.row = v.row + 1 := congrArg VertexIndex.row h2
    omega
  · have h3 : v.col = v.col - 1 := congrArg VertexIndex.col h2
    omega
  · have h3 : v.col = v.col + 1 := congrArg VertexIndex.col h2
    omega

lemma neighbors_mem_grid {b : Builder} {v w : VertexIndex}
    (hv : v ∈ gridVertices b) (hw : w ∈ neighbors b v) : w ∈ gridVertices b := by
  rw [mem_gridVertices] at hv ⊢
  rcases mem_neighbors.mp hw with ⟨h1, rfl⟩ | ⟨h1, rfl⟩ | ⟨h1, rfl⟩ | ⟨h1, rfl⟩ <;>
    constructor <;> simp <;> omega

/-- Emitting an edge from a grid vertex to one of its neighbours always
produces a canonical grid-edge key. -/
lemma canonPair_mem_adjPairs {b : Builder} {v w : VertexIndex}
    (hv : v ∈ gridVertices b) (hw : w ∈ neighbors b v) :
    canonPair v w ∈ adjPairs b := by
  rw [mem_gridVertices] at hv
  rw [adjPairs, Finset.mem_union]
  rcases mem_neighbors.mp hw with ⟨h1, rfl⟩ | ⟨h1, rfl⟩ | ⟨h1, rfl⟩ | ⟨h1, rfl⟩
  · right
    have hle : vle (⟨v.row - 1, v.col⟩ : VertexIndex) v = true := by
      rw [vle_iff]; left; show v.row - 1 < v.row; omega
    rw [canonPair_comm, canonPair_of_vle hle, mem_vertPairs]
    refine ⟨v.row - 1, v.col, by omega, hv.2, ?_⟩
    have h2 : v.row - 1 + 1 = v.row := by omega
    rw [h2]
  · right
    have hle : vle v (⟨v.row + 1, v.col⟩ : VertexIndex) = true := by
      rw [vle_iff]; left; show v.row < v.row + 1; omega
    rw [canonPair_of_vle hle, mem_vertPairs]
    exact ⟨v.row, v.col, h1, hv.2, rfl⟩
  · left
    have hle : vle (⟨v.row, v.col - 1⟩ : VertexIndex) v = true := by
      rw [vle_iff]; right
      exact ⟨rfl, by show v.col - 1 ≤ v.col; omega⟩
    rw [canonPair_comm, canonPair_of_vle hle, mem_horizPairs]
    refine ⟨v.row, v.col - 1, hv.1, by omega, ?_⟩
    have h2 : v.col - 1 + 1 = v.col := by omega
    rw [h2]
  · left
    have hle : vle v (⟨v.row, v.col + 1⟩ : VertexIndex) = true := by
      rw [vle_iff]; right
      exact ⟨rfl, by show v.col ≤ v.col + 1; omega⟩
    rw [canonPair_of_vle hle, mem_horizPairs]
    exact ⟨v.row, v.col, hv.1, h1, rfl⟩

/-- Every canonical grid-edge key joins two grid vertices that are
neighbours of each other, and is already in canonical order. -/
lemma adjPairs_spec {b : Builder} {e : VertexIndex × VertexIndex}
    (he : e ∈ adjPairs b) :
    e.1 ∈ gridVertices b ∧ e.2 ∈ gridVertices b ∧
      e.2 ∈ neighbors b e.1 ∧ e.1 ∈ neighbors b e.2 ∧
      canonPair e.1 e.2 = e := by
  rw [adjPairs, Finset.mem_union] at he
  rcases he with he | he
  · obtain ⟨r, c, h1, h2, rfl⟩ := mem_horizPairs.mp he
    refine ⟨mem_gridVertices.mpr ⟨h1, by show c ≤ b.x_pieces; omega⟩,
      mem_gridVertices.mpr ⟨h1, by show c + 1 ≤ b.x_pieces; omega⟩, ?_, ?_, ?_⟩
    · rw [mem_neighbors]
      right; right; right
      exact ⟨h2, rfl⟩
    · rw [mem_neighbors]
      right; right; left
      refine ⟨by show 0 < c + 1; omega, ?_⟩
      show (⟨r, c⟩ : VertexIndex) = ⟨r, c + 1 - 1⟩
      rw [show c + 1 - 1 = c from by omega]
    · apply canonPair_of_vle
      rw [vle_iff]
      right
      exact ⟨rfl, by show c ≤ c + 1; omega⟩
  · obtain ⟨r, c, h1, h2, rfl⟩ := mem_vertPairs.mp he
    refine ⟨mem_gridVertices.mpr ⟨by show r ≤ b.y_pieces; omega, h2⟩,
      mem_gridVertices.mpr ⟨by show r + 1 ≤ b.y_pieces; omega, h2⟩, ?_, ?_, ?_⟩
    · rw [mem_neighbors]
      right; left
      exact ⟨h1, rfl⟩
    · rw [mem_neighbors]
      left
      refine ⟨by show 0 < r + 1; omega, ?_⟩
      show (⟨r, c⟩ : VertexIndex) = ⟨r + 1 - 1, c⟩
      rw [show r + 1 - 1 = r from by omega]
    · apply canonPair_of_vle
      rw [vle_iff]
      left
      show r < r + 1
      omega

/-! ### The frontier invariant of `gen_edges` -/

lemma add_edge_fst (b : Builder) (vertices : List Point) (rng : RngState)
    (vi1 vi2 : VertexIndex) :
    (add_edge b vertices rng vi1 vi2).1.1 = canonPair vi1 vi2 := rfl

/-- The inner neighbour loop appends one entry per neighbour; the appended
keys are the canonical pairs with the current vertex. -/
lemma foldl_add_edge_map_fst (b : Builder) (vertices : List Point)
    (current : VertexIndex) (ns : List VertexIndex) :
    ∀ (em : List Entry) (rng : RngState),
      ((ns.foldl (fun acc w =>
          let r := add_edge b vertices acc.2 current w
          (acc.1 ++ [r.1], r.2)) (em, rng)).1).map Prod.fst =
        em.map Prod.fst ++ ns.map (canonPair current) := by
  induction ns with
  | nil => intro em rng; simp
  | cons w ns ih =>
    intro em rng
    have h1 : (List.foldl (fun acc w =>
          let r := add_edge b vertices acc.2 current w
          (acc.1 ++ [r.1], r.2)) (em, rng) (w :: ns)) =
        (List.foldl (fun acc w =>
          let r := add_edge b vertices acc.2 current w
          (acc.1 ++ [r.1], r.2))
          (em ++ [(add_edge b vertices rng current w).1],
            (add_edge b vertices rng current w).2) ns) := rfl
    rw [h1, ih]
    simp [add_edge_fst]

/-- The invariant maintained by the frontier loop of `gen_edges`:
`todo` and `done` are disjoint sets of grid vertices, the traversal was
seeded at the origin, the emitted keys are exactly the grid-edge keys
with at least one endpoint already processed (each emitted once), and
every neighbour of a processed vertex has been scheduled. -/
structure GenInv (b : Builder) (todo done : Finset VertexIndex)
    (em : List Entry) : Prop where
  todo_sub : todo ⊆ gridVertices b
  done_sub : done ⊆ gridVertices b
  disj : ∀ v ∈ todo, v ∉ done
  origin : (⟨0, 0⟩ : VertexIndex) ∈ todo ∪ done
  keys_nodup : (em.map Prod.fst).Nodup
  keys_set : (em.map Prod.fst).toFinset =
    (adjPairs b).filter fun e => e.1 ∈ done ∨ e.2 ∈ done
  closure : ∀ v ∈ done, ∀ w ∈ neighbors b v, w ∈ todo ∪ done

lemma genInv_init (b : Builder) : GenInv b {(⟨0, 0⟩ : VertexIndex)} ∅ [] := by
  constructor
  · intro v hv
    rw [Finset.mem_singleton] at hv
    subst hv
    exact mem_gridVertices.mpr ⟨Nat.zero_le _, Nat.zero_le _⟩
  · exact Finset.empty_subset _
  · intro v _ hv
    exact absurd hv (Finset.not_mem_empty v)
  · exact Finset.mem_union_left _ (Finset.mem_singleton_self _)
  · exact List.nodup_nil
  · rw [show (([] : List Entry).map Prod.fst).toFinset = ∅ from rfl]
    symm
    rw [Finset.eq_empty_iff_forall_not_mem]
    intro e he
    rw [Finset.mem_filter] at he
    rcases he.2 with h | h <;> exact absurd h (Finset.not_mem_empty _)
  · intro v hv
    exact absurd hv (Finset.not_mem_empty v)

lemma mem_ns {b : Builder} {done : Finset VertexIndex} {current w : VertexIndex} :
    w ∈ (neighbors b current).filter (fun w => decide (w ∉ done)) ↔
      w ∈ neighbors b current ∧ w ∉ done := by
  rw [List.mem_filter, decide_eq_true_iff]

/-- One iteration of the frontier loop preserves the invariant. -/
lemma genInv_step {b : Builder} {todo done : Finset VertexIndex} {em : List Entry}
    (inv : GenInv b todo done em) {current : VertexIndex} (hcur : current ∈ todo)
    (vertices : List Point) (rng : RngState) :
    GenInv b
      ((todo.erase current) ∪
        ((neighbors b current).filter fun w => decide (w ∉ done)).toFinset)
      (insert current done)
      ((((neighbors b current).filter fun w => decide (w ∉ done)).foldl
        (fun acc w =>
          let r := add_edge b vertices acc.2 current w
          (acc.1 ++ [r.1], r.2)) (em, rng)).1) := by
  have hcurV : current ∈ gridVertices b := inv.todo_sub hcur
  have hcur_not_done : current ∉ done := inv.disj current hcur
  set ns := (neighbors b current).filter (fun w => decide (w ∉ done)) with hns
  have hns_mem : ∀ {w}, w ∈ ns ↔ w ∈ neighbors b current ∧ w ∉ done := fun {w} => mem_ns
  have hkeys := foldl_add_edge_map_fst b vertices current ns em rng
  constructor
  · apply Finset.union_subset
    · exact fun v hv => inv.todo_sub (Finset.mem_of_mem_erase hv)
    · intro v hv
      rw [List.mem_toFinset] at hv
      exact neighbors_mem_grid hcurV (hns_mem.mp hv).1
  · exact Finset.insert_subset hcurV inv.done_sub
  · intro v hv hvdone
    rw [Finset.mem_union] at hv
    rw [Finset.mem_insert] at hvdone
    rcases hv with hv | hv
    · rw [Finset.mem_erase] at hv
      rcases hvdone with h | h
      · exact hv.1 h
      · exact inv.disj v hv.2 h
    · rw [List.mem_toFinset] at hv
      rcases hns_mem.mp hv with ⟨hn, hnd⟩
      rcases hvdone with h | h
      · subst h
        exact self_not_mem_neighbors b v hn
      · exact hnd h
  · rcases Finset.mem_union.mp inv.origin with h | h
    · by_cases hc : (⟨0, 0⟩ : VertexIndex) = current
      · exact Finset.mem_union_right _ (hc ▸ Finset.mem_insert_self current done)
      · exact Finset.mem_union_left _
          (Finset.mem_union_left _ (Finset.mem_erase.mpr ⟨hc, h⟩))
    · exact Finset.mem_union_right _ (Finset.mem_insert_of_mem h)
  · rw [hkeys, List.nodup_append]
    refine ⟨inv.keys_nodup, ?_, ?_⟩
    · apply List.Nodup.map_on
      · intro w1 h1 w2 h2 heq
        have hne1 : w1 ≠ current := by
          intro hh
          exact self_not_mem_neighbors b current (hh ▸ (hns_mem.mp h1).1)
        have hne2 : w2 ≠ current := by
          intro hh
          exact self_not_mem_neighbors b current (hh ▸ (hns_mem.mp h2).1)
        exact canonPair_inj hne1 hne2 heq
      · exact (neighbors_nodup b current).filter _
    · intro e he1 he2
      rw [← List.mem_toFinset, inv.keys_set, Finset.mem_filter] at he1
      obtain ⟨w, hw, rfl⟩ := List.mem_map.mp he2
      rcases hns_mem.mp hw with ⟨-, hwd⟩
      rcases canonPair_cases current w with hc | hc <;> rw [hc] at he1
      · rcases he1.2 with h | h
        · exact hcur_not_done h
        · exact hwd h
      · rcases he1.2 with h | h
        · exact hwd h
        · exact hcur_not_done h
  · rw [hkeys]
    ext e
    rw [List.toFinset_append, Finset.mem_union, inv.keys_set, List.mem_toFinset,
      List.mem_map, Finset.mem_filter, Finset.mem_filter]
    constructor
    · rintro (⟨hadj, hd⟩ | ⟨w, hw, rfl⟩)
      · refine ⟨hadj, ?_⟩
        rcases hd with h | h
        · exact Or.inl (Finset.mem_insert_of_mem h)
        · exact Or.inr (Finset.mem_insert_of_mem h)
      · rcases hns_mem.mp hw with ⟨hn, -⟩
        refine ⟨canonPair_mem_adjPairs hcurV hn, ?_⟩
        rcases canonPair_cases current w with hc | hc <;> rw [hc]
        · exact Or.inl (Finset.mem_insert_self _ _)
        · exact Or.inr (Finset.mem_insert_self _ _)
    · rintro ⟨hadj, hd⟩
      by_cases h1 : e.1 ∈ done
      · exact Or.inl ⟨hadj, Or.inl h1⟩
      by_cases h2 : e.2 ∈ done
      · exact Or.inl ⟨hadj, Or.inr h2⟩
      obtain ⟨hv1, hv2, hn12, hn21, hcanon⟩ := adjPairs_spec hadj
      right
      rcases hd with hd | hd
      · rw [Finset.mem_insert] at hd
        rcases hd with hd | hd
        · refine ⟨e.2, hns_mem.mpr ⟨hd ▸ hn12, h2⟩, ?_⟩
          rw [← hd]
          exact hcanon
        · exact absurd hd h1
      · rw [Finset.mem_insert] at hd
        rcases hd with hd | hd
        · refine ⟨e.1, hns_mem.mpr ⟨hd ▸ hn21, h1⟩, ?_⟩
          rw [canonPair_comm, ← hd]
          exact hcanon
        · exact absurd hd h2
  · intro v hv w hw
    rw [Finset.mem_insert] at hv
    rw [Finset.mem_union]
    rcases hv with rfl | hv
    · by_cases hd : w ∈ done
      · exact Or.inr (Finset.mem_insert_of_mem hd)
      · exact Or.inl (Finset.mem_union_right _
          (List.mem_toFinset.mpr (hns_mem.mpr ⟨hw, hd⟩)))
    · rcases Finset.mem_union.mp (inv.closure v hv w hw) with h | h
      · by_cases hc : w = current
        · exact Or.inr (hc ▸ Finset.mem_insert_self current done)
        · exact Or.inl (Finset.mem_union_left _ (Finset.mem_erase.mpr ⟨hc, h⟩))
      · exact Or.inr (Finset.mem_insert_of_mem h)

/-- When the frontier is empty, every grid vertex has been processed and
the emitted keys are exactly the grid-edge keys. -/
lemma genInv_terminal {b : Builder} {done : Finset VertexIndex} {em : List Entry}
    (inv : GenInv b ∅ done em) :
    done = gridVertices b ∧ (em.map Prod.fst).Nodup ∧
      (em.map Prod.fst).toFinset = adjPairs b := by
  have hclosed : ∀ v ∈ done, ∀ w ∈ neighbors b v, w ∈ done := by
    intro v hv w hw
    have h := inv.closure v hv w hw
    rwa [Finset.empty_union] at h
  have horigin : (⟨0, 0⟩ : VertexIndex) ∈ done := by
    have h := inv.origin
    rwa [Finset.empty_union] at h
  have hall : ∀ n r c, r + c = n → r ≤ b.y_pieces → c ≤ b.x_pieces →
      (⟨r, c⟩ : VertexIndex) ∈ done := by
    intro n
    induction n using Nat.strong_induction_on with
    | _ n ih =>
      intro r c hn hr hc
      rcases Nat.eq_zero_or_pos r with rfl | hrpos
      · rcases Nat.eq_zero_or_pos c with rfl | hcpos
        · exact horigin
        · have hprev : (⟨0, c - 1⟩ : VertexIndex) ∈ done :=
            ih (0 + (c - 1)) (by omega) 0 (c - 1) rfl (by omega) (by omega)
          refine hclosed _ hprev _ ?_
          rw [mem_neighbors]
          right; right; right
          refine ⟨by show c - 1 < b.x_pieces; omega, ?_⟩
          show (⟨0, c⟩ : VertexIndex) = ⟨0, c - 1 + 1⟩
          rw [show c - 1 + 1 = c from by omega]
      · have hprev : (⟨r - 1, c⟩ : VertexIndex) ∈ done :=
          ih ((r - 1) + c) (by omega) (r - 1) c rfl (by omega) hc
        refine hclosed _ hprev _ ?_
        rw [mem_neighbors]
        right; left
        refine ⟨by show r - 1 < b.y_pieces; omega, ?_⟩
        show (⟨r, c⟩ : VertexIndex) = ⟨r - 1 + 1, c⟩
        rw [show r - 1 + 1 = r from by omega]
  have hsub : gridVertices b ⊆ done := by
    intro v hv
    rcases mem_gridVertices.mp hv with ⟨hr, hc⟩
    exact hall (v.row + v.col) v.row v.col rfl hr hc
  have hdone : done = gridVertices b := Finset.Subset.antisymm inv.done_sub hsub
  refine ⟨hdone, inv.keys_nodup, ?_⟩
  rw [inv.keys_set, hdone]
  apply Finset.filter_true_of_mem
  intro e he
  exact Or.inl (adjPairs_spec he).1

/-- With fuel at least the number of unprocessed grid vertices, the
frontier loop of `gen_edges` drains the frontier completely and ends in a
terminal invariant state. -/
lemma gen_edges_aux_run (b : Builder) (vertices : List Point)
    (pick : ℕ → (s : Finset VertexIndex) → s.Nonempty → VertexIndex)
    (hpick : ∀ n s h, pick n s h ∈ s) :
    ∀ (fuel : ℕ) (todo done : Finset VertexIndex) (em : List Entry) (rng : RngState),
      GenInv b todo done em → (gridVertices b \ done).card ≤ fuel →
      (gen_edges_aux b vertices pick fuel todo done em rng).1 = ∅ ∧
      ∃ done', GenInv b ∅ done'
        (gen_edges_aux b vertices pick fuel todo done em rng).2.1 := by
  intro fuel
  induction fuel with
  | zero =>
    intro todo done em rng inv hcard
    have hVsub : gridVertices b ⊆ done := by
      rw [Nat.le_zero, Finset.card_eq_zero, Finset.sdiff_eq_empty_iff_subset] at hcard
      exact hcard
    have htodo : todo = ∅ := by
      rw [Finset.eq_empty_iff_forall_not_mem]
      intro v hv
      exact inv.disj v hv (hVsub (inv.todo_sub hv))
    subst htodo
    exact ⟨rfl, done, inv⟩
  | succ fuel ih =>
    intro todo done em rng inv hcard
    by_cases h : todo.Nonempty
    · have heq : gen_edges_aux b vertices pick (fuel + 1) todo done em rng =
        gen_edges_aux b vertices pick fuel
          ((todo.erase (pick (fuel + 1) todo h)) ∪
            ((neighbors b (pick (fuel + 1) todo h)).filter fun w =>
              decide (w ∉ done)).toFinset)
          (insert (pick (fuel + 1) todo h) done)
          ((((neighbors b (pick (fuel + 1) todo h)).filter fun w =>
            decide (w ∉ done)).foldl (fun acc w =>
              let r := add_edge b vertices acc.2 (pick (fuel + 1) todo h) w
              (acc.1 ++ [r.1], r.2)) (em, rng)).1)
          ((((neighbors b (pick (fuel + 1) todo h)).filter fun w =>
            decide (w ∉ done)).foldl (fun acc w =>
              let r := add_edge b vertices acc.2 (pick (fuel + 1) todo h) w
              (acc.1 ++ [r.1], r.2)) (em, rng)).2) := by
        simp only [gen_edges_aux]
        rw [dif_pos h]
      rw [heq]
      have hcur := hpick (fuel + 1) todo h
      apply ih _ _ _ _ (genInv_step inv hcur vertices rng)
      have hmem : pick (fuel + 1) todo h ∈ gridVertices b \ done :=
        Finset.mem_sdiff.mpr ⟨inv.todo_sub hcur, inv.disj _ hcur⟩
      have h1 : gridVertices b \ insert (pick (fuel + 1) todo h) done =
          (gridVertices b \ done).erase (pick (fuel + 1) todo h) := by
        ext x
        simp only [Finset.mem_sdiff, Finset.mem_erase, Finset.mem_insert]
        tauto
      rw [h1, Finset.card_erase_of_mem hmem]
      have h2 : 0 < (gridVertices b \ done).card := Finset.card_pos.mpr ⟨_, hmem⟩
      omega
    · rw [Finset.not_nonempty_iff_eq_empty] at h
      subst h
      have heq : gen_edges_aux b vertices pick (fuel + 1) ∅ done em rng =
          ((∅ : Finset VertexIndex), em, rng) := by
        simp only [gen_edges_aux]
        rw [dif_neg Finset.not_nonempty_empty]
      rw [heq]
      exact ⟨rfl, done, inv⟩

/-- The model of `Puzzle::gen_edges` empties its frontier within
`(x_pieces+1)*(y_pieces+1)` iterations and emits every grid-edge key
exactly once: no duplicate, no omission. -/
lemma gen_edges_keys (b : Builder) (vertices : List Point)
    (pick : ℕ → (s : Finset VertexIndex) → s.Nonempty → VertexIndex)
    (hpick : ∀ n s h, pick n s h ∈ s) (rng : RngState) :
    (gen_edges b vertices pick rng).1 = ∅ ∧
      ((gen_edges b vertices pick rng).2.1.map Prod.fst).Nodup ∧
      ((gen_edges b vertices pick rng).2.1.map Prod.fst).toFinset = adjPairs b ∧
      (gen_edges b vertices pick rng).2.1.length =
        (b.x_pieces + 1) * b.y_pieces + b.x_pieces * (b.y_pieces + 1) := by
  simp only [gen_edges]
  have hcard : (gridVertices b \ ∅).card ≤ (b.x_pieces + 1) * (b.y_pieces + 1) := by
    rw [Finset.sdiff_empty, card_gridVertices]
    exact le_of_eq (by ring)
  obtain ⟨h1, done', inv'⟩ :=
    gen_edges_aux_run b vertices pick hpick ((b.x_pieces + 1) * (b.y_pieces + 1))
      {(⟨0, 0⟩ : VertexIndex)} ∅ [] rng (genInv_init b) hcard
  obtain ⟨-, hnodup, hset⟩ := genInv_terminal inv'
  refine ⟨h1, hnodup, hset, ?_⟩
  have hlen : ((gen_edges_aux b vertices pick ((b.x_pieces + 1) * (b.y_pieces + 1))
      {(⟨0, 0⟩ : VertexIndex)} ∅ [] rng).2.1.map Prod.fst).length =
      (adjPairs b).card := by
    rw [← hset, List.toFinset_card_of_nodup hnodup]
  rw [List.length_map] at hlen
  rw [hlen, card_adjPairs]

/-! ### Pointwise properties of emitted entries -/

/-- The neighbour loop preserves any rng-state invariant `Q` and any
entry property `P` that `add_edge` always establishes from `Q`. -/
lemma foldl_add_edge_pointwise (b : Builder) (vertices : List Point)
    (current : VertexIndex) (Q : RngState → Prop) (P : Entry → Prop)
    (hstep : ∀ rng v w, Q rng →
      P (add_edge b vertices rng v w).1 ∧ Q (add_edge b vertices rng v w).2)
    (ns : List VertexIndex) :
    ∀ (em : List Entry) (rng : RngState), Q rng → (∀ e ∈ em, P e) →
      (∀ e ∈ (ns.foldl (fun acc w =>
          let r := add_edge b vertices acc.2 current w
          (acc.1 ++ [r.1], r.2)) (em, rng)).1, P e) ∧
        Q (ns.foldl (fun acc w =>
          let r := add_edge b vertices acc.2 current w
          (acc.1 ++ [r.1], r.2)) (em, rng)).2 := by
  induction ns with
  | nil =>
    intro em rng hQ hP
    exact ⟨hP, hQ⟩
  | cons w ns ih =>
    intro em rng hQ hP
    have h1 : (List.foldl (fun acc w =>
          let r := add_edge b vertices acc.2 current w
          (acc.1 ++ [r.1], r.2)) (em, rng) (w :: ns)) =
        (List.foldl (fun acc w =>
          let r := add_edge b vertices acc.2 current w
          (acc.1 ++ [r.1], r.2))
          (em ++ [(add_edge b vertices rng current w).1],
            (add_edge b vertices rng current w).2) ns) := rfl
    rw [h1]
    obtain ⟨hPe, hQ'⟩ := hstep rng current w hQ
    apply ih _ _ hQ'
    intro e he
    rcases List.mem_append.mp he with he | he
    · exact hP e he
    · rw [List.mem_singleton] at he
      subst he
      exact hPe

/-- Every entry emitted by the frontier loop satisfies any property that
`add_edge` always establishes. -/
lemma gen_edges_aux_pointwise (b : Builder) (vertices : List Point)
    (pick : ℕ → (s : Finset VertexIndex) → s.Nonempty → VertexIndex)
    (Q : RngState → Prop) (P : Entry → Prop)
    (hstep : ∀ rng v w, Q rng →
      P (add_edge b vertices rng v w).1 ∧ Q (add_edge b vertices rng v w).2) :
    ∀ (fuel : ℕ) (todo done : Finset VertexIndex) (em : List Entry) (rng : RngState),
      Q rng → (∀ e ∈ em, P e) →
      ∀ e ∈ (gen_edges_aux b vertices pick fuel todo done em rng).2.1, P e := by
  intro fuel
  induction fuel with
  | zero =>
    intro todo done em rng _ hP
    exact hP
  | succ fuel ih =>
    intro todo done em rng hQ hP
    by_cases h : todo.Nonempty
    · have heq : gen_edges_aux b vertices pick (fuel + 1) todo done em rng =
        gen_edges_aux b vertices pick fuel
          ((todo.erase (pick (fuel + 1) todo h)) ∪
            ((neighbors b (pick (fuel + 1) todo h)).filter fun w =>
              decide (w ∉ done)).toFinset)
          (insert (pick (fuel + 1) todo h) done)
          ((((neighbors b (pick (fuel + 1) todo h)).filter fun w =>
            decide (w ∉ done)).foldl (fun acc w =>
              let r := add_edge b vertices acc.2 (pick (fuel + 1) todo h) w
              (acc.1 ++ [r.1], r.2)) (em, rng)).1)
          ((((neighbors b (pick (fuel + 1) todo h)).filter fun w =>
            decide (w ∉ done)).foldl (fun acc w =>
              let r := add_edge b vertices acc.2 (pick (fuel + 1) todo h) w
              (acc.1 ++ [r.1], r.2)) (em, rng)).2) := by
        simp only [gen_edges_aux]
        rw [dif_pos h]
      rw [heq]
      obtain ⟨hP', hQ'⟩ := foldl_add_edge_pointwise b vertices (pick (fuel + 1) todo h)
        Q P hstep ((neighbors b (pick (fuel + 1) todo h)).filter fun w =>
          decide (w ∉ done)) em rng hQ hP
      exact ih _ _ _ _ hQ' hP'
    · have heq : gen_edges_aux b vertices pick (fuel + 1) todo done em rng =
          (todo, em, rng) := by
        simp only [gen_edges_aux]
        rw [dif_neg h]
      rw [heq]
      exact hP

/-! ### Row-major structure of `gen_vertices` -/

lemma flat_rows_length {α : Type} (m : ℕ) (f : ℕ → List α)
    (hf : ∀ i, (f i).length = m) :
    ∀ R, ((List.range R).flatMap f).length = R * m := by
  intro R
  induction R with
  | zero => simp
  | succ R ih =>
    rw [List.range_succ, List.flatMap_append, List.length_append, ih]
    simp [hf]
    ring

lemma flat_rows_getElem {α : Type} (m : ℕ) (f : ℕ → List α)
    (hf : ∀ i, (f i).length = m) :
    ∀ R r c, r < R → c < m →
      ((List.range R).flatMap f)[r * m + c]? = (f r)[c]? := by
  intro R
  induction R with
  | zero => intro r c hr _; omega
  | succ R ih =>
    intro r c hr hc
    rw [List.range_succ, List.flatMap_append, List.getElem?_append,
      flat_rows_length m f hf R]
    rcases Nat.lt_or_ge r R with h | h
    · rw [if_pos ?side]
      · exact ih r c h hc
      case side =>
        calc r * m + c < r * m + m := by omega
        _ = (r + 1) * m := by ring
        _ ≤ R * m := Nat.mul_le_mul_right m h
    · have hrR : r = R := by omega
      subst hrR
      rw [if_neg (by omega)]
      have hidx : r * m + c - r * m = c := by omega
      rw [hidx]
      simp

lemma gen_vertices_length (b : Builder) :
    (gen_vertices b).length = (b.y_pieces + 1) * (b.x_pieces + 1) := by
  exact flat_rows_length (b.x_pieces + 1)
    (fun (y : ℕ) => (List.range (b.x_pieces + 1)).map fun (x : ℕ) =>
      (⟨(x : ℝ) * (b.x_mm / (b.x_pieces : ℝ)), (y : ℝ) * (b.y_mm / (b.y_pieces : ℝ))⟩ : Point))
    (fun i => by simp) (b.y_pieces + 1)

/-- The vertex stored at flat index `row * (x_pieces + 1) + col` is
`(col * piece_width, row * piece_height)`. -/
lemma gen_vertices_get (b : Builder) {r c : ℕ}
    (hr : r ≤ b.y_pieces) (hc : c ≤ b.x_pieces) :
    (gen_vertices b)[r * (b.x_pieces + 1) + c]? =
      some ⟨(c : ℝ) * (b.x_mm / (b.x_pieces : ℝ)),
        (r : ℝ) * (b.y_mm / (b.y_pieces : ℝ))⟩ := by
  have h := flat_rows_getElem (b.x_pieces + 1)
    (fun (y : ℕ) => (List.range (b.x_pieces + 1)).map fun (x : ℕ) =>
      (⟨(x : ℝ) * (b.x_mm / (b.x_pieces : ℝ)), (y : ℝ) * (b.y_mm / (b.y_pieces : ℝ))⟩ : Point))
    (fun i => by simp) (b.y_pieces + 1) r c (by omega) (by omega)
  rw [show (gen_vertices b) = (List.range (b.y_pieces + 1)).flatMap
    (fun (y : ℕ) => (List.range (b.x_pieces + 1)).map fun (x : ℕ) =>
      (⟨(x : ℝ) * (b.x_mm / (b.x_pieces : ℝ)), (y : ℝ) * (b.y_mm / (b.y_pieces : ℝ))⟩ : Point))
    from rfl]
  rw [h, List.getElem?_map, List.getElem?_range (by omega)]
  rfl

/-! ### Geometry of the edge transform -/

lemma sqrt_mul_cos_atan2 (yv xv : ℝ) :
    Real.sqrt (yv ^ 2 + xv ^ 2) * Real.cos (atan2 yv xv) = xv := by
  have habs : Real.sqrt (yv ^ 2 + xv ^ 2) =
      Complex.abs { re := xv, im := yv } := by
    rw [Complex.abs_apply, Complex.normSq_mk]
    congr 1
    ring
  by_cases hz : ({ re := xv, im := yv } : ℂ) = 0
  · have hx : xv = 0 := congrArg Complex.re hz
    have hy : yv = 0 := congrArg Complex.im hz
    rw [hx, hy]
    simp
  · rw [habs, atan2, Complex.cos_arg hz]
    have hne : Complex.abs { re := xv, im := yv } ≠ 0 := Complex.abs.ne_zero hz
    field_simp

lemma sqrt_mul_sin_atan2 (yv xv : ℝ) :
    Real.sqrt (yv ^ 2 + xv ^ 2) * Real.sin (atan2 yv xv) = yv := by
  have habs : Real.sqrt (yv ^ 2 + xv ^ 2) =
      Complex.abs { re := xv, im := yv } := by
    rw [Complex.abs_apply, Complex.normSq_mk]
    congr 1
    ring
  by_cases hz : ({ re := xv, im := yv } : ℂ) = 0
  · have hx : xv = 0 := congrArg Complex.re hz
    have hy : yv = 0 := congrArg Complex.im hz
    rw [hx, hy]
    simp
  · rw [habs, atan2, Complex.sin_arg]
    have hne : Complex.abs { re := xv, im := yv } ≠ 0 := Complex.abs.ne_zero hz
    field_simp

/-- The edge transform fixes the unit-frame origin onto the segment
start. -/
lemma transform_point_zero (S E : Point) :
    Edge.transform_point ⟨0, 0⟩ S E = S := by
  simp only [Edge.transform_point, Point.scale, Point.rotate_by, Point.translate_to]
  ext <;> simp

/-- The edge transform carries the unit-frame point (1, 0) onto the
segment end. -/
lemma transform_point_one (S E : Point) :
    Edge.transform_point ⟨1, 0⟩ S E = E := by
  simp only [Edge.transform_point, Point.scale, Point.rotate_by, Point.translate_to,
    Point.dist]
  have hd : Real.sqrt ((S.y - E.y) ^ 2 + (S.x - E.x) ^ 2) =
      Real.sqrt ((E.y - S.y) ^ 2 + (E.x - S.x) ^ 2) := by
    congr 1
    ring
  have hc := sqrt_mul_cos_atan2 (E.y - S.y) (E.x - S.x)
  have hs := sqrt_mul_sin_atan2 (E.y - S.y) (E.x - S.x)
  ext
  · show 1 * Real.sqrt ((S.y - E.y) ^ 2 + (S.x - E.x) ^ 2) *
        Real.cos (atan2 (E.y - S.y) (E.x - S.x)) -
      0 * Real.sqrt ((S.y - E.y) ^ 2 + (S.x - E.x) ^ 2) *
        Real.sin (atan2 (E.y - S.y) (E.x - S.x)) + S.x = E.x
    rw [hd]
    nlinarith [hc]
  · show 1 * Real.sqrt ((S.y - E.y) ^ 2 + (S.x - E.x) ^ 2) *
        Real.sin (atan2 (E.y - S.y) (E.x - S.x)) +
      0 * Real.sqrt ((S.y - E.y) ^ 2 + (S.x - E.x) ^ 2) *
        Real.cos (atan2 (E.y - S.y) (E.x - S.x)) + S.y = E.y
    rw [hd]
    nlinarith [hs]

/-- Concrete transform onto the vertical unit segment from (1,0) up to
(1,1): rotation by pi/2 about (1,0). -/
lemma transform_point_vertical (p : Point) :
    Edge.transform_point p ⟨1, 0⟩ ⟨1, 1⟩ = ⟨1 - p.y, p.x⟩ := by
  simp only [Edge.transform_point, Point.scale, Point.rotate_by, Point.translate_to,
    Point.dist, atan2]
  have harg : ({ re := (1 : ℝ) - 1, im := (1 : ℝ) - 0 } : ℂ) = Complex.I := by
    rw [Complex.ext_iff]
    constructor <;> simp
  have hdist : Real.sqrt (((0 : ℝ) - 1) ^ 2 + ((1 : ℝ) - 1) ^ 2) = 1 := by
    rw [show ((0 : ℝ) - 1) ^ 2 + ((1 : ℝ) - 1) ^ 2 = 1 by norm_num, Real.sqrt_one]
  rw [harg, Complex.arg_I, hdist]
  ext <;> simp [Real.cos_pi_div_two, Real.sin_pi_div_two] <;> ring

/-- Concrete transform onto the horizontal unit segment from (1,1) right
to (2,1): pure translation by (1,1). -/
lemma transform_point_horizontal (p : Point) :
    Edge.transform_point p ⟨1, 1⟩ ⟨2, 1⟩ = ⟨p.x + 1, p.y + 1⟩ := by
  simp only [Edge.transform_point, Point.scale, Point.rotate_by, Point.translate_to,
    Point.dist, atan2]
  have harg : ({ re := (2 : ℝ) - 1, im := (1 : ℝ) - 1 } : ℂ) = 1 := by
    rw [Complex.ext_iff]
    constructor <;> norm_num
  have hdist : Real.sqrt (((1 : ℝ) - 1) ^ 2 + ((1 : ℝ) - 2) ^ 2) = 1 := by
    rw [show ((1 : ℝ) - 1) ^ 2 + ((1 : ℝ) - 2) ^ 2 = 1 by norm_num, Real.sqrt_one]
  rw [harg, Complex.arg_one, hdist]
  ext <;> simp [Real.cos_zero, Real.sin_zero] <;> ring

/-! ### Behaviour of the synthesis pipeline under explicit streams -/

lemma point_jitter_stream (p : Point) (m : ℝ) (rng : RngState) :
    (p.jitter m rng).2.reals = rng.reals ∧ (p.jitter m rng).2.bools = rng.bools ∧
      (p.jitter m rng).2.bpos = rng.bpos := by
  exact ⟨rfl, rfl, rfl⟩

/-- With the constant stream of unit draws 1/2, every `gen_range(-m, m)`
draw is zero so `Point::jitter` leaves the point unchanged. -/
lemma point_jitter_const_half (p : Point) (m : ℝ) (rng : RngState)
    (h : rng.reals = fun _ => (1 / 2 : ℝ)) : (p.jitter m rng).1 = p := by
  simp only [Point.jitter, RngState.genRange, h]
  ext <;> (show _ + (-m + 1 / 2 * (m - -m)) = _) <;> ring

/-- With the constant stream of unit draws 1/2, `Edge::jitter` is the
identity on the edge (the rng stream functions and the boolean position
are unchanged definitionally). -/
lemma point_jitter_reals (p : Point) (m : ℝ) (rng : RngState) :
    (p.jitter m rng).2.reals = rng.reals := rfl

lemma edge_jitter_const_half (e : Edge) (m : ℝ) (rng : RngState)
    (h : rng.reals = fun _ => (1 / 2 : ℝ)) : (e.jitter m rng).1 = e := by
  cases e with
  | Bumpless => rfl
  | Bumpy desc =>
    have h1 : ((desc.nubbin_start.jitter (m / 2) rng).2).reals =
        fun _ => (1 / 2 : ℝ) := by
      rw [point_jitter_reals]; exact h
    have h2 : ((desc.nubbin_end.jitter (m / 2)
        ((desc.nubbin_start.jitter (m / 2) rng).2)).2).reals =
        fun _ => (1 / 2 : ℝ) := by
      rw [point_jitter_reals]; exact h1
    have h3 : ((desc.start_control.jitter m
        ((desc.nubbin_end.jitter (m / 2)
          ((desc.nubbin_start.jitter (m / 2) rng).2)).2)).2).reals =
        fun _ => (1 / 2 : ℝ) := by
      rw [point_jitter_reals]; exact h2
    have h4 : ((desc.end_control.jitter m
        ((desc.start_control.jitter m
          ((desc.nubbin_end.jitter (m / 2)
            ((desc.nubbin_start.jitter (m / 2) rng).2)).2)).2)).2).reals =
        fun _ => (1 / 2 : ℝ) := by
      rw [point_jitter_reals]; exact h3
    have h5 : ((desc.left_nubbin_control.jitter m
        ((desc.end_control.jitter m
          ((desc.start_control.jitter m
            ((desc.nubbin_end.jitter (m / 2)
              ((desc.nubbin_start.jitter (m / 2) rng).2)).2)).2)).2)).2).reals =
        fun _ => (1 / 2 : ℝ) := by
      rw [point_jitter_reals]; exact h4
    simp only [Edge.jitter]
    rw [point_jitter_const_half desc.nubbin_start (m / 2) rng h]
    rw [point_jitter_const_half desc.nubbin_end (m / 2)
      ((desc.nubbin_start.jitter (m / 2) rng).2) h1]
    rw [point_jitter_const_half desc.start_control m
      ((desc.nubbin_end.jitter (m / 2)
        ((desc.nubbin_start.jitter (m / 2) rng).2)).2) h2]
    rw [point_jitter_const_half desc.end_control m
      ((desc.start_control.jitter m
        ((desc.nubbin_end.jitter (m / 2)
          ((desc.nubbin_start.jitter (m / 2) rng).2)).2)).2) h3]
    rw [point_jitter_const_half desc.left_nubbin_control m
      ((desc.end_control.jitter m
        ((desc.start_control.jitter m
          ((desc.nubbin_end.jitter (m / 2)
            ((desc.nubbin_start.jitter (m / 2) rng).2)).2)).2)).2) h4]
    rw [point_jitter_const_half desc.right_nubbin_control m
      ((desc.left_nubbin_control.jitter m
        ((desc.end_control.jitter m
          ((desc.start_control.jitter m
            ((desc.nubbin_end.jitter (m / 2)
              ((desc.nubbin_start.jitter (m / 2) rng).2)).2)).2)).2)).2) h5]

lemma point_jitter_bools (p : Point) (m : ℝ) (rng : RngState) :
    (p.jitter m rng).2.bools = rng.bools := rfl

lemma point_jitter_bpos (p : Point) (m : ℝ) (rng : RngState) :
    (p.jitter m rng).2.bpos = rng.bpos := rfl

lemma edge_jitter_bools (e : Edge) (m : ℝ) (rng : RngState) :
    (e.jitter m rng).2.bools = rng.bools := by
  cases e with
  | Bumpless => rfl
  | Bumpy desc =>
    simp only [Edge.jitter]
    simp only [point_jitter_bools]

lemma edge_jitter_bpos (e : Edge) (m : ℝ) (rng : RngState) :
    (e.jitter m rng).2.bpos = rng.bpos := by
  cases e with
  | Bumpless => rfl
  | Bumpy desc =>
    simp only [Edge.jitter]
    simp only [point_jitter_bpos]

lemma edge_jitter_reals (e : Edge) (m : ℝ) (rng : RngState) :
    (e.jitter m rng).2.reals = rng.reals := by
  cases e with
  | Bumpless => rfl
  | Bumpy desc =>
    simp only [Edge.jitter]
    simp only [point_jitter_reals]

/-- The edge classification is invariant under canonicalising the pair. -/
lemma is_edge_vertex_minmax (b : Builder) (v w : VertexIndex) :
    (is_edge_vertex b (vmin v w) && is_edge_vertex b (vmax v w)) =
      (is_edge_vertex b v && is_edge_vertex b w) := by
  unfold vmin vmax
  cases hvw : vle v w
  · simp [Bool.and_comm]
  · simp

/-- The edge value that `add_edge` produces for a given canonical key when
every unit draw is 1/2 (zero jitter offsets) and every boolean draw is
`flag`. -/
noncomputable def valEdge (b : Builder) (vertices : List Point) (flag : Bool)
    (key : VertexIndex × VertexIndex) : Edge :=
  if is_edge_vertex b key.1 && is_edge_vertex b key.2 then Edge.plain
  else (if flag then Edge.nubbin.mirror_x else Edge.nubbin).transform
    (vertices.getD (index_of_vertex b key.1) ⟨0, 0⟩)
    (vertices.getD (index_of_vertex b key.2) ⟨0, 0⟩)

lemma add_edge_stream (b : Builder) (vertices : List Point) (rng : RngState)
    (v w : VertexIndex) :
    (add_edge b vertices rng v w).2.reals = rng.reals ∧
      (add_edge b vertices rng v w).2.bools = rng.bools := by
  simp only [add_edge, RngState.genBool]
  exact ⟨edge_jitter_reals _ _ _, edge_jitter_bools _ _ _⟩

/-- Under the constant streams (unit draws 1/2, boolean draws `flag`),
`add_edge` stores exactly `valEdge` at the canonical key. -/
lemma add_edge_const (b : Builder) (vertices : List Point) (flag : Bool)
    (rng : RngState) (v w : VertexIndex)
    (hr : rng.reals = fun _ => (1 / 2 : ℝ)) (hb : rng.bools = fun _ => flag) :
    (add_edge b vertices rng v w).1.2 = valEdge b vertices flag (canonPair v w) := by
  simp only [add_edge, valEdge, canonPair]
  rw [is_edge_vertex_minmax]
  set e0 := if is_edge_vertex b v && is_edge_vertex b w then Edge.plain else Edge.nubbin
    with he0
  have hj : (e0.jitter 0.06 rng).1 = e0 := edge_jitter_const_half e0 0.06 rng hr
  have hg : ((e0.jitter 0.06 rng).2.genBool).1 = flag := by
    simp only [RngState.genBool, edge_jitter_bools, hb]
  rw [hg, hj, he0]
  cases hcond : is_edge_vertex b v && is_edge_vertex b w
  · simp
  · cases flag <;> simp [Edge.plain, Edge.mirror_x, Edge.transform]

lemma build_edges (b : Builder)
    (pick : ℕ → (s : Finset VertexIndex) → s.Nonempty → VertexIndex)
    (rng : RngState) :
    (Puzzle.build b pick rng).edges = (gen_edges b (gen_vertices b) pick rng).2.1 := rfl

lemma build_vertices (b : Builder)
    (pick : ℕ → (s : Finset VertexIndex) → s.Nonempty → VertexIndex)
    (rng : RngState) :
    (Puzzle.build b pick rng).vertices = gen_vertices b := rfl

lemma edge_jitter_bumpless (m : ℝ) (rng : RngState) :
    (Edge.Bumpless.jitter m rng).1 = Edge.Bumpless := rfl

lemma edge_jitter_bumpy (desc : EdgeDesc) (m : ℝ) (rng : RngState) :
    ∃ d, ((Edge.Bumpy desc).jitter m rng).1 = Edge.Bumpy d ∧
      d.polarity = desc.polarity ∧
      d.nubbin_start = (desc.nubbin_start.jitter (m / 2) rng).1 :=
  ⟨_, rfl, rfl, rfl⟩

lemma edge_mirror_bumpy (desc : EdgeDesc) :
    ∃ d, (Edge.Bumpy desc).mirror_x = Edge.Bumpy d ∧
      d.polarity = desc.polarity ∧ d.nubbin_start = desc.nubbin_start.mirror_x :=
  ⟨_, rfl, rfl, rfl⟩

lemma edge_transform_bumpy (desc : EdgeDesc) (S E : Point) :
    ∃ d, (Edge.Bumpy desc).transform S E = Edge.Bumpy d ∧
      d.polarity = desc.polarity ∧
      d.nubbin_start = Edge.transform_point desc.nubbin_start S E :=
  ⟨_, rfl, rfl, rfl⟩

/-- The stored edge value is the Bumpless (Plain) variant exactly when
both original endpoints classify as boundary vertices. -/
lemma add_edge_bumpless_iff (b : Builder) (vertices : List Point) (rng : RngState)
    (v w : VertexIndex) :
    ((add_edge b vertices rng v w).1.2 = Edge.Bumpless ↔
      (is_edge_vertex b v && is_edge_vertex b w) = true) := by
  simp only [add_edge]
  cases hcond : is_edge_vertex b v && is_edge_vertex b w
  · simp only [Bool.false_eq_true, if_false, Edge.plain, Edge.nubbin]
    obtain ⟨d1, hd1, -, -⟩ := edge_jitter_bumpy EdgeDesc.unit_edge 0.06 rng
    rw [hd1]
    constructor
    · intro h
      exfalso
      cases hgb : ((Edge.Bumpy EdgeDesc.unit_edge).jitter 0.06 rng).2.genBool.1
      · rw [hgb] at h
        simp only [Bool.false_eq_true, if_false] at h
        obtain ⟨d3, hd3, -, -⟩ := edge_transform_bumpy d1
          (vertices.getD (index_of_vertex b (vmin v w)) ⟨0, 0⟩)
          (vertices.getD (index_of_vertex b (vmax v w)) ⟨0, 0⟩)
        rw [hd3] at h
        exact Edge.noConfusion h
      · rw [hgb] at h
        simp only [if_true] at h
        obtain ⟨d2, hd2, -, -⟩ := edge_mirror_bumpy d1
        rw [hd2] at h
        obtain ⟨d3, hd3, -, -⟩ := edge_transform_bumpy d2
          (vertices.getD (index_of_vertex b (vmin v w)) ⟨0, 0⟩)
          (vertices.getD (index_of_vertex b (vmax v w)) ⟨0, 0⟩)
        rw [hd3] at h
        exact Edge.noConfusion h
    · intro h
      exact absurd h (by simp)
  · simp only [if_true, Edge.plain]
    rw [edge_jitter_bumpless]
    constructor
    · intro _
      trivial
    · intro _
      cases hgb : (Edge.Bumpless.jitter 0.06 rng).2.genBool.1
      · rfl
      · rfl

/-- Every stored Bumpy edge value carries polarity `Left`. -/
lemma add_edge_polarity (b : Builder) (vertices : List Point) (rng : RngState)
    (v w : VertexIndex) :
    ∀ d, (add_edge b vertices rng v w).1.2 = Edge.Bumpy d → d.polarity = .Left := by
  intro d hd
  simp only [add_edge] at hd
  cases hcond : is_edge_vertex b v && is_edge_vertex b w <;> rw [hcond] at hd
  · simp only [Bool.false_eq_true, if_false, Edge.nubbin] at hd
    obtain ⟨d1, hd1, hp1, -⟩ := edge_jitter_bumpy EdgeDesc.unit_edge 0.06 rng
    rw [hd1] at hd
    cases hgb : ((Edge.Bumpy EdgeDesc.unit_edge).jitter 0.06 rng).2.genBool.1 <;>
      rw [hgb] at hd
    · simp only [Bool.false_eq_true, if_false] at hd
      obtain ⟨d3, hd3, hp3, -⟩ := edge_transform_bumpy d1
        (vertices.getD (index_of_vertex b (vmin v w)) ⟨0, 0⟩)
        (vertices.getD (index_of_vertex b (vmax v w)) ⟨0, 0⟩)
      rw [hd3] at hd
      have : d3 = d := by
        cases hd
        rfl
      rw [← this, hp3, hp1]
      rfl
    · simp only [if_true] at hd
      obtain ⟨d2, hd2, hp2, -⟩ := edge_mirror_bumpy d1
      rw [hd2] at hd
      obtain ⟨d3, hd3, hp3, -⟩ := edge_transform_bumpy d2
        (vertices.getD (index_of_vertex b (vmin v w)) ⟨0, 0⟩)
        (vertices.getD (index_of_vertex b (vmax v w)) ⟨0, 0⟩)
      rw [hd3] at hd
      have : d3 = d := by
        cases hd
        rfl
      rw [← this, hp3, hp2, hp1]
      rfl
  · simp only [if_true, Edge.plain] at hd
    rw [edge_jitter_bumpless] at hd
    exfalso
    cases hgb : (Edge.Bumpless.jitter 0.06 rng).2.genBool.1 <;> rw [hgb] at hd
    · simp only [Bool.false_eq_true, if_false] at hd
      exact Edge.noConfusion hd
    · simp only [if_true] at hd
      exact Edge.noConfusion hd

/-- Under constant streams, every stored edge value is `valEdge` of its
key. -/
lemma build_const_edges (b : Builder) (flag : Bool) (rng : RngState)
    (hr : rng.reals = fun _ => (1 / 2 : ℝ)) (hb : rng.bools = fun _ => flag)
    (pick : ℕ → (s : Finset VertexIndex) → s.Nonempty → VertexIndex) :
    ∀ e ∈ (Puzzle.build b pick rng).edges,
      e.2 = valEdge b (gen_vertices b) flag e.1 := by
  rw [build_edges]
  simp only [gen_edges]
  intro e he
  refine gen_edges_aux_pointwise b (gen_vertices b) pick
    (fun r => r.reals = (fun _ => (1 / 2 : ℝ)) ∧ r.bools = (fun _ => flag))
    (fun e => e.2 = valEdge b (gen_vertices b) flag e.1)
    ?_ _ _ _ _ _ ⟨hr, hb⟩ (by intro e' he'; exact absurd he' (List.not_mem_nil e')) e he
  intro r v w hQ
  refine ⟨?_, ?_⟩
  · show (add_edge b (gen_vertices b) r v w).1.2 =
      valEdge b (gen_vertices b) flag (add_edge b (gen_vertices b) r v w).1.1
    rw [add_edge_fst]
    exact add_edge_const b (gen_vertices b) flag r v w hQ.1 hQ.2
  · obtain ⟨h1, h2⟩ := add_edge_stream b (gen_vertices b) r v w
    rw [h1, h2]
    exact hQ

/-! ### Concrete configurations and streams used by witnesses -/

/-- A 1-by-1 puzzle configuration, 2mm by 2mm. -/
noncomputable def cfg11 : Builder := ⟨2, 2, 1, 1⟩

/-- A 2-by-2 puzzle configuration, 2mm by 2mm (1mm pieces). -/
noncomputable def cfg22 : Builder := ⟨2, 2, 2, 2⟩

/-- The configuration with zero columns (the spec requires rejecting
it). -/
noncomputable def cfg0 : Builder := ⟨300, 200, 0, 10⟩

/-- The spec's concrete scenario: width 300, height 200, 15 columns, 10
rows. -/
noncomputable def cfg1510 : Builder := ⟨300, 200, 15, 10⟩

/-- Constant stream with unit draws 1/2 and boolean draws true. -/
noncomputable def constRngTrue : RngState := ⟨fun _ => 1 / 2, fun _ => true, 0, 0⟩

/-- Constant stream with unit draws 1 (every `gen_range(-m, m)` draw is
the maximum `m`) and boolean draws false. -/
noncomputable def constRngOne : RngState := ⟨fun _ => 1, fun _ => false, 0, 0⟩

/-- With the constant stream of unit draws 1, `Point::jitter` shifts both
coordinates by the full magnitude. -/
lemma point_jitter_const_one (p : Point) (m : ℝ) (rng : RngState)
    (h : rng.reals = fun _ => (1 : ℝ)) :
    (p.jitter m rng).1 = ⟨p.x + m, p.y + m⟩ := by
  simp only [Point.jitter, RngState.genRange, h]
  ext
  · show p.x + (-m + 1 * (m - -m)) = p.x + m
    ring
  · show p.y + (-m + 1 * (m - -m)) = p.y + m
    ring

lemma gen_vertices_getD (b : Builder) (v : VertexIndex)
    (hr : v.row ≤ b.y_pieces) (hc : v.col ≤ b.x_pieces) :
    (gen_vertices b).getD (index_of_vertex b v) ⟨0, 0⟩ =
      ⟨(v.col : ℝ) * (b.x_mm / (b.x_pieces : ℝ)),
        (v.row : ℝ) * (b.y_mm / (b.y_pieces : ℝ))⟩ := by
  rw [List.getD_eq_getElem?_getD,
    show index_of_vertex b v = v.row * (b.x_pieces + 1) + v.col from rfl,
    gen_vertices_get b hr hc]
  rfl

lemma vertex_01 :
    (gen_vertices cfg22).getD (index_of_vertex cfg22 ⟨0, 1⟩) ⟨0, 0⟩ = ⟨1, 0⟩ := by
  rw [gen_vertices_getD cfg22 ⟨0, 1⟩ (by decide) (by decide)]
  ext <;> simp [cfg22]

lemma vertex_11 :
    (gen_vertices cfg22).getD (index_of_vertex cfg22 ⟨1, 1⟩) ⟨0, 0⟩ = ⟨1, 1⟩ := by
  rw [gen_vertices_getD cfg22 ⟨1, 1⟩ (by decide) (by decide)]
  ext <;> simp [cfg22]

lemma vertex_12 :
    (gen_vertices cfg22).getD (index_of_vertex cfg22 ⟨1, 2⟩) ⟨0, 0⟩ = ⟨2, 1⟩ := by
  rw [gen_vertices_getD cfg22 ⟨1, 2⟩ (by decide) (by decide)]
  ext <;> simp [cfg22]

/-! ### The claims -/

/-- C1: for every `x_pieces >= 1` and `y_pieces >= 1`, the breadth-first
edge generation (`gen_edges`, seeded at vertex (0,0)) terminates — the
frontier is empty after at most `(x_pieces+1)*(y_pieces+1)` iterations —
and emits exactly `(x_pieces+1)*y_pieces + x_pieces*(y_pieces+1)` edges:
every pair of grid-adjacent vertices appears exactly once in the edge
table (no duplicate, no omission), regardless of the order in which
frontier vertices are removed (the arbitrary schedule `pick`). -/
theorem C1_gen_edges_complete (b : Builder)
    (hx : 1 ≤ b.x_pieces) (hy : 1 ≤ b.y_pieces) (vertices : List Point)
    (pick : ℕ → (s : Finset VertexIndex) → s.Nonempty → VertexIndex)
    (hpick : ∀ n s h, pick n s h ∈ s) (rng : RngState) :
    (gen_edges b vertices pick rng).1 = ∅ ∧
    ((gen_edges b vertices pick rng).2.1.map Prod.fst).Nodup ∧
    ((gen_edges b vertices pick rng).2.1.map Prod.fst).toFinset = adjPairs b ∧
    (∀ v ∈ gridVertices b, ∀ w ∈ neighbors b v,
      canonPair v w ∈ (gen_edges b vertices pick rng).2.1.map Prod.fst) ∧
    (gen_edges b vertices pick rng).2.1.length =
      (b.x_pieces + 1) * b.y_pieces + b.x_pieces * (b.y_pieces + 1) := by
  obtain ⟨h1, h2, h3, h4⟩ := gen_edges_keys b vertices pick hpick rng
  refine ⟨h1, h2, h3, ?_, h4⟩
  intro v hv w hw
  rw [← List.mem_toFinset, h3]
  exact canonPair_mem_adjPairs hv hw

/-- Witness for C1 at the concrete configuration `cfg11` (1-by-1 pieces),
with the least-vertex schedule and a constant stream. -/
theorem C1_gen_edges_complete_witness :
    (1 ≤ cfg11.x_pieces) ∧ (1 ≤ cfg11.y_pieces) ∧
    ((gen_edges cfg11 [] pickMin constRng).1 = ∅ ∧
    ((gen_edges cfg11 [] pickMin constRng).2.1.map Prod.fst).Nodup ∧
    ((gen_edges cfg11 [] pickMin constRng).2.1.map Prod.fst).toFinset = adjPairs cfg11 ∧
    (∀ v ∈ gridVertices cfg11, ∀ w ∈ neighbors cfg11 v,
      canonPair v w ∈ (gen_edges cfg11 [] pickMin constRng).2.1.map Prod.fst) ∧
    (gen_edges cfg11 [] pickMin constRng).2.1.length =
      (cfg11.x_pieces + 1) * cfg11.y_pieces + cfg11.x_pieces * (cfg11.y_pieces + 1)) :=
  ⟨by decide, by decide,
    C1_gen_edges_complete cfg11 (by decide) (by decide) [] pickMin
      (fun n s h => Finset.min'_mem s h) constRng⟩

/-- C2: in every built puzzle, an edge-table value is the Plain
(`Bumpless`) variant iff both endpoint vertex indices of its key lie on
the rectangle boundary, every other edge being the Tabbed (`Bumpy`)
variant; and the boundary classification is
`row = 0 ∨ row = y_pieces ∨ col = 0 ∨ col = x_pieces`. -/
theorem C2_plain_iff_boundary (b : Builder)
    (pick : ℕ → (s : Finset VertexIndex) → s.Nonempty → VertexIndex)
    (rng : RngState) :
    (∀ e ∈ (Puzzle.build b pick rng).edges,
      (e.2 = Edge.plain ↔
        (is_edge_vertex b e.1.1 = true ∧ is_edge_vertex b e.1.2 = true)) ∧
      (e.2 = Edge.plain ∨ ∃ d, e.2 = Edge.Bumpy d)) ∧
    (∀ v : VertexIndex, is_edge_vertex b v = true ↔
      (v.row = 0 ∨ v.row = b.y_pieces ∨ v.col = 0 ∨ v.col = b.x_pieces)) := by
  constructor
  · intro e he
    constructor
    · rw [build_edges] at he
      simp only [gen_edges] at he
      have hP := gen_edges_aux_pointwise b (gen_vertices b) pick (fun _ => True)
        (fun e => e.2 = Edge.Bumpless ↔
          (is_edge_vertex b e.1.1 && is_edge_vertex b e.1.2) = true)
        (fun r v w _ => ⟨by
            show (add_edge b (gen_vertices b) r v w).1.2 = Edge.Bumpless ↔
              (is_edge_vertex b (add_edge b (gen_vertices b) r v w).1.1.1 &&
                is_edge_vertex b (add_edge b (gen_vertices b) r v w).1.1.2) = true
            rw [add_edge_fst]
            show _ ↔ (is_edge_vertex b (vmin v w) && is_edge_vertex b (vmax v w)) = true
            rw [is_edge_vertex_minmax]
            exact add_edge_bumpless_iff b (gen_vertices b) r v w, trivial⟩)
        _ _ _ _ _ trivial (fun e' he' => absurd he' (List.not_mem_nil e')) e he
      have hP2 : e.2 = Edge.Bumpless ↔
          (is_edge_vertex b e.1.1 && is_edge_vertex b e.1.2) = true := hP
      rw [show Edge.plain = Edge.Bumpless from rfl, hP2, Bool.and_eq_true]
    · cases he2 : e.2 with
      | Bumpless => exact Or.inl rfl
      | Bumpy d => exact Or.inr ⟨d, rfl⟩
  · intro v
    simp [is_edge_vertex]

/-- C3: the code performs no validation of zero piece counts: with
`x_pieces = 0` (division by zero in the spacing) `Puzzle::build` still
returns a fully built puzzle — 11 vertices and 10 edges for
`cfg0 = (300, 200, 0 columns, 10 rows)` — instead of surfacing a
recoverable configuration error.  (In the Rust code the spacing is the
f32 `300.0 / 0.0 = inf` and the vertex x-coordinates are `0 * inf = NaN`;
the real-valued model assigns division by zero the value 0.) -/
theorem C3_zero_pieces_not_rejected :
    (Puzzle.build cfg0 pickMin constRng).vertices.length = 11 ∧
    (Puzzle.build cfg0 pickMin constRng).edges.length = 10 := by
  constructor
  · rw [build_vertices, gen_vertices_length]
    decide
  · rw [build_edges]
    exact (gen_edges_keys cfg0 (gen_vertices cfg0) pickMin
      (fun n s h => Finset.min'_mem s h) constRng).2.2.2.trans (by decide)

/-- C5: for every configuration with `x_pieces >= 1` and `y_pieces >= 1`,
vertex generation produces exactly `(x_pieces+1)*(y_pieces+1)` vertices
in row-major order, the vertex for (row, col) being the point
`(col * width_mm/x_pieces, row * height_mm/y_pieces)` stored at flat
index `row * (x_pieces + 1) + col`. -/
theorem C5_row_major_vertices (b : Builder)
    (hx : 1 ≤ b.x_pieces) (hy : 1 ≤ b.y_pieces) :
    (gen_vertices b).length = (b.x_pieces + 1) * (b.y_pieces + 1) ∧
    ∀ r c, r ≤ b.y_pieces → c ≤ b.x_pieces →
      (gen_vertices b)[r * (b.x_pieces + 1) + c]? =
        some ⟨(c : ℝ) * (b.x_mm / (b.x_pieces : ℝ)),
          (r : ℝ) * (b.y_mm / (b.y_pieces : ℝ))⟩ := by
  constructor
  · rw [gen_vertices_length]
    ring
  · intro r c hr hc
    exact gen_vertices_get b hr hc

/-- Witness for C5 at the concrete configuration `cfg11`. -/
theorem C5_row_major_vertices_witness :
    (1 ≤ cfg11.x_pieces) ∧ (1 ≤ cfg11.y_pieces) ∧
    ((gen_vertices cfg11).length = (cfg11.x_pieces + 1) * (cfg11.y_pieces + 1) ∧
    ∀ r c, r ≤ cfg11.y_pieces → c ≤ cfg11.x_pieces →
      (gen_vertices cfg11)[r * (cfg11.x_pieces + 1) + c]? =
        some ⟨(c : ℝ) * (cfg11.x_mm / (cfg11.x_pieces : ℝ)),
          (r : ℝ) * (cfg11.y_mm / (cfg11.y_pieces : ℝ))⟩) :=
  ⟨by decide, by decide, C5_row_major_vertices cfg11 (by decide) (by decide)⟩

/-- C8: for every pair of points S and E, the edge transform (uniform
scale by dist(S,E), rotation by atan2(E.y - S.y, E.x - S.x), translation
by S) carries the canonical unit-frame points (0,0) and (1,0) exactly
onto S and E. -/
theorem C8_transform_round_trip (S E : Point) :
    Edge.transform_point ⟨0, 0⟩ S E = S ∧ Edge.transform_point ⟨1, 0⟩ S E = E :=
  ⟨transform_point_zero S E, transform_point_one S E⟩

/-- C9: every key stored in the edge table is canonical for the total
row-major order `vle`: its first component is `min`, its second is `max`
of the two endpoints, the unordered pair mapping to a unique
order-independent key (`canonPair` is symmetric, `vle` is total and is
the row-major lexicographic order). -/
theorem C9_canonical_keys (b : Builder)
    (pick : ℕ → (s : Finset VertexIndex) → s.Nonempty → VertexIndex)
    (rng : RngState) :
    (∀ e ∈ (Puzzle.build b pick rng).edges,
      vle e.1.1 e.1.2 = true ∧ e.1 = canonPair e.1.1 e.1.2) ∧
    (∀ a c : VertexIndex, canonPair a c = canonPair c a) ∧
    (∀ a c : VertexIndex, vle a c = true ∨ vle c a = true) ∧
    (∀ a c : VertexIndex, vle a c = true ↔
      a.row < c.row ∨ (a.row = c.row ∧ a.col ≤ c.col)) := by
  refine ⟨?_, canonPair_comm, vle_total, fun a c => vle_iff⟩
  intro e he
  rw [build_edges] at he
  simp only [gen_edges] at he
  exact gen_edges_aux_pointwise b (gen_vertices b) pick (fun _ => True)
    (fun e => vle e.1.1 e.1.2 = true ∧ e.1 = canonPair e.1.1 e.1.2)
    (fun r v w _ => ⟨by
        show vle (add_edge b (gen_vertices b) r v w).1.1.1
            (add_edge b (gen_vertices b) r v w).1.1.2 = true ∧
          (add_edge b (gen_vertices b) r v w).1.1 =
            canonPair (add_edge b (gen_vertices b) r v w).1.1.1
              (add_edge b (gen_vertices b) r v w).1.1.2
        rw [add_edge_fst]
        refine ⟨vle_canonPair v w, ?_⟩
        rw [canonPair_of_vle (vle_canonPair v w)], trivial⟩)
    _ _ _ _ _ trivial (fun e' he' => absurd he' (List.not_mem_nil e')) e he

/-- C10: in every built puzzle every Tabbed (`Bumpy`) edge's polarity
field equals `Left`: the unit template initialises it to `Left` and none
of jitter, mirror_x or transform modifies it — in particular `mirror_x`
negates the y coordinate of the six control points but leaves the
polarity unchanged. -/
theorem C10_polarity_always_left (b : Builder)
    (pick : ℕ → (s : Finset VertexIndex) → s.Nonempty → VertexIndex)
    (rng : RngState) :
    (∀ e ∈ (Puzzle.build b pick rng).edges,
      ∀ d, e.2 = Edge.Bumpy d → d.polarity = .Left) ∧
    EdgeDesc.unit_edge.polarity = .Left ∧
    (∀ d, ∃ d', (Edge.Bumpy d).mirror_x = Edge.Bumpy d' ∧
      d'.polarity = d.polarity ∧
      d'.nubbin_start = d.nubbin_start.mirror_x ∧
      d'.nubbin_end = d.nubbin_end.mirror_x ∧
      d'.start_control = d.start_control.mirror_x ∧
      d'.end_control = d.end_control.mirror_x ∧
      d'.left_nubbin_control = d.left_nubbin_control.mirror_x ∧
      d'.right_nubbin_control = d.right_nubbin_control.mirror_x) := by
  refine ⟨?_, rfl, fun d => ⟨_, rfl, rfl, rfl, rfl, rfl, rfl, rfl, rfl⟩⟩
  intro e he
  rw [build_edges] at he
  simp only [gen_edges] at he
  exact gen_edges_aux_pointwise b (gen_vertices b) pick (fun _ => True)
    (fun e => ∀ d, e.2 = Edge.Bumpy d → d.polarity = .Left)
    (fun r v w _ => ⟨add_edge_polarity b (gen_vertices b) r v w, trivial⟩)
    _ _ _ _ _ trivial (fun e' he' => absurd he' (List.not_mem_nil e')) e he

/-- C4 (amended): the inner generation steps receive the randomness
source as an explicit argument, so the built puzzle is a function of the
configuration, the frontier schedule and the randomness stream alone:
two generations with identical configuration and extensionally identical
randomness streams produce identical output.  (The unamended claim fails:
`Puzzle::build` draws the source from the ambient thread-local generator,
see the counterexample.) -/
theorem C4_deterministic_given_stream (b : Builder)
    (pick : ℕ → (s : Finset VertexIndex) → s.Nonempty → VertexIndex)
    (r1 r2 : RngState)
    (hre : ∀ n, r1.reals n = r2.reals n) (hbo : ∀ n, r1.bools n = r2.bools n)
    (hrp : r1.rpos = r2.rpos) (hbp : r1.bpos = r2.bpos) :
    Puzzle.build b pick r1 = Puzzle.build b pick r2 := by
  have h : r1 = r2 := by
    cases r1
    cases r2
    simp only at hrp hbp
    rw [show ∀ x y z w, RngState.mk x y z w = ⟨x, y, z, w⟩ from fun _ _ _ _ => rfl]
    exact congrArg₂ (fun a c => RngState.mk a c _ _) (funext hre) (funext hbo) |>.trans
      (by rw [hrp, hbp])
  rw [h]

/-- Witness for C4 (amended) at `cfg11` with the same stream twice. -/
theorem C4_deterministic_given_stream_witness :
    Puzzle.build cfg11 pickMin constRng = Puzzle.build cfg11 pickMin constRng :=
  C4_deterministic_given_stream cfg11 pickMin constRng constRng
    (fun _ => rfl) (fun _ => rfl) rfl rfl

/-- C4 counterexample: with the configuration fixed (`cfg22`) and the
frontier schedule fixed, two states of the ambient thread-local
randomness source produce different puzzles — the output is not a
function of the configuration and a caller-suppliable seed, because
`Puzzle::build` creates `rand::thread_rng()` internally. -/
theorem C4_counterexample :
    Puzzle.build cfg22 pickMin constRng ≠ Puzzle.build cfg22 pickMin constRngTrue := by
  intro heq
  have hkeys := gen_edges_keys cfg22 (gen_vertices cfg22) pickMin
    (fun n s h => Finset.min'_mem s h) constRng
  have hmem : ((⟨0, 1⟩ : VertexIndex), (⟨1, 1⟩ : VertexIndex)) ∈
      ((gen_edges cfg22 (gen_vertices cfg22) pickMin constRng).2.1.map Prod.fst) := by
    rw [← List.mem_toFinset, hkeys.2.2.1]
    decide
  obtain ⟨e, he, hefst⟩ := List.mem_map.mp hmem
  have hA : e.2 = valEdge cfg22 (gen_vertices cfg22) false e.1 :=
    build_const_edges cfg22 false constRng rfl rfl pickMin e
      (by rw [build_edges]; exact he)
  have heB : e ∈ (Puzzle.build cfg22 pickMin constRngTrue).edges := by
    rw [← heq, build_edges]
    exact he
  have hB : e.2 = valEdge cfg22 (gen_vertices cfg22) true e.1 :=
    build_const_edges cfg22 true constRngTrue rfl rfl pickMin e heB
  rw [hefst] at hA hB
  have hval : valEdge cfg22 (gen_vertices cfg22) false (⟨0, 1⟩, ⟨1, 1⟩) =
      valEdge cfg22 (gen_vertices cfg22) true (⟨0, 1⟩, ⟨1, 1⟩) := hA.symm.trans hB
  have hS : (gen_vertices cfg22).getD
      (index_of_vertex cfg22 ((⟨0, 1⟩ : VertexIndex), (⟨1, 1⟩ : VertexIndex)).1) ⟨0, 0⟩ =
      ⟨1, 0⟩ := vertex_01
  have hE : (gen_vertices cfg22).getD
      (index_of_vertex cfg22 ((⟨0, 1⟩ : VertexIndex), (⟨1, 1⟩ : VertexIndex)).2) ⟨0, 0⟩ =
      ⟨1, 1⟩ := vertex_11
  rw [valEdge, valEdge, hS, hE] at hval
  rw [if_neg (show ¬((is_edge_vertex cfg22 ((⟨0, 1⟩ : VertexIndex),
    (⟨1, 1⟩ : VertexIndex)).1 && is_edge_vertex cfg22 ((⟨0, 1⟩ : VertexIndex),
    (⟨1, 1⟩ : VertexIndex)).2) = true) from by decide)] at hval
  rw [if_neg (show ¬((is_edge_vertex cfg22 ((⟨0, 1⟩ : VertexIndex),
    (⟨1, 1⟩ : VertexIndex)).1 && is_edge_vertex cfg22 ((⟨0, 1⟩ : VertexIndex),
    (⟨1, 1⟩ : VertexIndex)).2) = true) from by decide)] at hval
  rw [if_neg (show ¬(false = true) from by decide),
    if_pos (show true = true from rfl)] at hval
  obtain ⟨dM, hdM, -, hdMs⟩ := edge_mirror_bumpy EdgeDesc.unit_edge
  obtain ⟨dA, hdA, -, hdAs⟩ := edge_transform_bumpy EdgeDesc.unit_edge ⟨1, 0⟩ ⟨1, 1⟩
  obtain ⟨dB, hdB, -, hdBs⟩ := edge_transform_bumpy dM ⟨1, 0⟩ ⟨1, 1⟩
  rw [show Edge.nubbin = Edge.Bumpy EdgeDesc.unit_edge from rfl, hdA, hdM, hdB] at hval
  have hd : dA = dB := by
    cases hval
    rfl
  have h1 : dA.nubbin_start = ⟨1 - 0.1, 0.4⟩ := by
    rw [hdAs, show EdgeDesc.unit_edge.nubbin_start = (⟨0.4, 0.1⟩ : Point) from rfl,
      transform_point_vertical]
  have h2 : dB.nubbin_start = ⟨1 + 0.1, 0.4⟩ := by
    rw [hdBs, hdMs, show EdgeDesc.unit_edge.nubbin_start = (⟨0.4, 0.1⟩ : Point) from rfl,
      show (⟨0.4, 0.1⟩ : Point).mirror_x = (⟨0.4, -(0.1 : ℝ)⟩ : Point) from rfl,
      transform_point_vertical]
    ext <;> norm_num
  rw [hd, h2] at h1
  have hx : (1 : ℝ) + 0.1 = 1 - 0.1 := congrArg Point.x h1
  norm_num at hx

/-- C7 (divergence witness): the jitter magnitude in edge-shape synthesis
is the hard-coded unit-frame constant 0.06 in `add_edge` — there is no
jitter-percentage configuration in the builder and hence no way to set
it to zero.  Under maximal unit draws the stored Tabbed edge for the
interior pair ((1,1),(1,2)) of `cfg22` has its nubbin start perturbed by
0.06/2 in each axis, and so differs from the transform of the
unperturbed template (which the spec's `jitter_pct = 0` scenario
requires). -/
theorem C7_jitter_hardcoded :
    ∃ d, (add_edge cfg22 (gen_vertices cfg22) constRngOne ⟨1, 1⟩ ⟨1, 2⟩).1.2 =
        Edge.Bumpy d ∧
      d.nubbin_start = ⟨0.4 + 0.06 / 2 + 1, 0.1 + 0.06 / 2 + 1⟩ ∧
      d.nubbin_start ≠ Edge.transform_point ⟨0.4, 0.1⟩ ⟨1, 1⟩ ⟨2, 1⟩ := by
  obtain ⟨dJ, hdJ, -, hdJs⟩ := edge_jitter_bumpy EdgeDesc.unit_edge 0.06 constRngOne
  have hdJ' : (Edge.nubbin.jitter 0.06 constRngOne).1 = Edge.Bumpy dJ := hdJ
  have hg : ((Edge.nubbin.jitter 0.06 constRngOne).2.genBool).1 = false := by
    simp only [RngState.genBool, edge_jitter_bools]
    rfl
  have hval : (add_edge cfg22 (gen_vertices cfg22) constRngOne ⟨1, 1⟩ ⟨1, 2⟩).1.2 =
      (Edge.Bumpy dJ).transform ⟨1, 1⟩ ⟨2, 1⟩ := by
    simp only [add_edge]
    rw [show (is_edge_vertex cfg22 ⟨1, 1⟩ && is_edge_vertex cfg22 ⟨1, 2⟩) = false from
      by decide]
    simp only [Bool.false_eq_true, if_false]
    rw [hg]
    simp only [Bool.false_eq_true, if_false]
    rw [hdJ']
    rw [show vmin (⟨1, 1⟩ : VertexIndex) ⟨1, 2⟩ = (⟨1, 1⟩ : VertexIndex) from by decide,
      show vmax (⟨1, 1⟩ : VertexIndex) ⟨1, 2⟩ = (⟨1, 2⟩ : VertexIndex) from by decide,
      vertex_11, vertex_12]
  obtain ⟨dT, hdT, -, hdTs⟩ := edge_transform_bumpy dJ ⟨1, 1⟩ ⟨2, 1⟩
  have hs : dT.nubbin_start = ⟨0.4 + 0.06 / 2 + 1, 0.1 + 0.06 / 2 + 1⟩ := by
    rw [hdTs, hdJs, show EdgeDesc.unit_edge.nubbin_start = (⟨0.4, 0.1⟩ : Point) from rfl,
      point_jitter_const_one _ _ _ rfl, transform_point_horizontal]
  refine ⟨dT, by rw [hval, hdT], hs, ?_⟩
  rw [hs, transform_point_horizontal]
  intro hcontra
  have hx := congrArg Point.x hcontra
  norm_num at hx

/-! ### Counting move-to commands in the serialised output -/

lemma count_M_append (s t : String) :
    (s ++ t).data.count 'M' = s.data.count 'M' + t.data.count 'M' := by
  rw [String.data_append, List.count_append]

/-- Every per-edge path string contains exactly one move-to command
letter. -/
lemma edge_svg_count_M (fmt : ℝ → String) (hM : ∀ r, (fmt r).data.count 'M' = 0)
    (e : Edge) (v1 v2 : Point) : (e.svg fmt v1 v2).data.count 'M' = 1 := by
  cases e with
  | Bumpless =>
    simp only [Edge.svg, count_M_append, hM]
    decide
  | Bumpy d =>
    simp only [Edge.svg, count_M_append, hM]
    decide

lemma edge_svg_line_count_M (fmt : ℝ → String)
    (hM : ∀ r, (fmt r).data.count 'M' = 0) (b : Builder) (vertices : List Point)
    (e : Entry) : (edge_svg_line fmt b vertices e).data.count 'M' = 1 := by
  simp only [edge_svg_line, count_M_append, edge_svg_count_M fmt hM]
  decide

lemma foldl_svg_count_M (fmt : ℝ → String)
    (hM : ∀ r, (fmt r).data.count 'M' = 0) (b : Builder) (vertices : List Point)
    (edges : List Entry) : ∀ init : String,
    ((edges.foldl (fun acc e => acc ++ edge_svg_line fmt b vertices e)
      init).data.count 'M') = init.data.count 'M' + edges.length := by
  induction edges with
  | nil => intro init; simp
  | cons e es ih =>
    intro init
    rw [List.foldl_cons, ih, count_M_append, edge_svg_line_count_M fmt hM,
      List.length_cons]
    omega

/-- The serialised output contains exactly one move-to command letter per
edge-table entry: the header, footer and formatted numbers contribute
none. -/
lemma to_svg_count_M (fmt : ℝ → String)
    (hM : ∀ r, (fmt r).data.count 'M' = 0) (p : Puzzle) :
    (p.to_svg fmt).data.count 'M' = p.edges.length := by
  simp only [Puzzle.to_svg]
  rw [count_M_append, count_M_append, count_M_append, foldl_svg_count_M fmt hM]
  simp only [count_M_append, hM]
  have l1 : ("<svg xmlns=\"http://www.w3.org/2000/svg\" version=\"1.0\" ").data.count
      'M' = 0 := by decide
  have l2 : ("viewBox=\"0 0 ").data.count 'M' = 0 := by decide
  have l3 : (" ").data.count 'M' = 0 := by decide
  have l4 : ("\" ").data.count 'M' = 0 := by decide
  have l5 : ("style=\"margin: 1em;\" ").data.count 'M' = 0 := by decide
  have l6 : ("width=\"").data.count 'M' = 0 := by decide
  have l7 : ("mm\" height=\"").data.count 'M' = 0 := by decide
  have l8 : ("mm\" ").data.count 'M' = 0 := by decide
  have l9 : (">\n").data.count 'M' = 0 := by decide
  have l10 : ("<path fill=\"none\" stroke=\"black\" stroke-width=\"0.1\" d=\"").data.count
      'M' = 0 := by decide
  have l11 : ("\"></path>").data.count 'M' = 0 := by decide
  have l12 : ("\n").data.count 'M' = 0 := by decide
  have l13 : ("</svg>").data.count 'M' = 0 := by decide
  rw [l1, l2, l3, l4, l5, l6, l7, l8, l9, l10, l11, l12, l13]
  omega

lemma foldl_append_exists {α : Type} (f : α → String) (l : List α) :
    ∀ init : String, ∃ rest,
      l.foldl (fun acc e => acc ++ f e) init = init ++ rest := by
  induction l with
  | nil =>
    intro init
    exact ⟨"", by simp⟩
  | cons e l ih =>
    intro init
    obtain ⟨rest, hrest⟩ := ih (init ++ f e)
    exact ⟨f e ++ rest, by rw [List.foldl_cons, hrest, String.append_assoc]⟩

/-- The serialised output starts with the svg header and the viewport
declaration `0 0 width height`. -/
lemma to_svg_header (fmt : ℝ → String) (p : Puzzle) :
    ∃ rest, p.to_svg fmt =
      ("<svg xmlns=\"http://www.w3.org/2000/svg\" version=\"1.0\" " ++
        ("viewBox=\"0 0 " ++ fmt p.x_mm ++ " " ++ fmt p.y_mm ++ "\" ")) ++ rest := by
  obtain ⟨rest0, hrest0⟩ := foldl_append_exists
    (fun e => edge_svg_line fmt ⟨p.x_mm, p.y_mm, p.x_pieces, p.y_pieces⟩ p.vertices e)
    p.edges
    (((("<svg xmlns=\"http://www.w3.org/2000/svg\" version=\"1.0\" " ++
      ("viewBox=\"0 0 " ++ fmt p.x_mm ++ " " ++ fmt p.y_mm ++ "\" ") ++
      "style=\"margin: 1em;\" ") ++
      ("width=\"" ++ fmt p.x_mm ++ "mm\" height=\"" ++ fmt p.y_mm ++ "mm\" ")) ++
      ">\n") ++
      "<path fill=\"none\" stroke=\"black\" stroke-width=\"0.1\" d=\"")
  have hrest : p.edges.foldl (fun acc e =>
      acc ++ edge_svg_line fmt ⟨p.x_mm, p.y_mm, p.x_pieces, p.y_pieces⟩ p.vertices e)
      (((("<svg xmlns=\"http://www.w3.org/2000/svg\" version=\"1.0\" " ++
        ("viewBox=\"0 0 " ++ fmt p.x_mm ++ " " ++ fmt p.y_mm ++ "\" ") ++
        "style=\"margin: 1em;\" ") ++
        ("width=\"" ++ fmt p.x_mm ++ "mm\" height=\"" ++ fmt p.y_mm ++ "mm\" ")) ++
        ">\n") ++
        "<path fill=\"none\" stroke=\"black\" stroke-width=\"0.1\" d=\"") =
      (((("<svg xmlns=\"http://www.w3.org/2000/svg\" version=\"1.0\" " ++
        ("viewBox=\"0 0 " ++ fmt p.x_mm ++ " " ++ fmt p.y_mm ++ "\" ") ++
        "style=\"margin: 1em;\" ") ++
        ("width=\"" ++ fmt p.x_mm ++ "mm\" height=\"" ++ fmt p.y_mm ++ "mm\" ")) ++
        ">\n") ++
        "<path fill=\"none\" stroke=\"black\" stroke-width=\"0.1\" d=\"") ++ rest0 :=
    hrest0
  refine ⟨"style=\"margin: 1em;\" " ++
      (("width=\"" ++ fmt p.x_mm ++ "mm\" height=\"" ++ fmt p.y_mm ++ "mm\" ") ++
      (">\n" ++ ("<path fill=\"none\" stroke=\"black\" stroke-width=\"0.1\" d=\"" ++
      (rest0 ++ ("\"></path>" ++ ("\n" ++ "</svg>")))))), ?_⟩
  simp only [Puzzle.to_svg]
  rw [hrest]
  simp only [String.append_assoc]

/-- C6: serialisation emits one path command group per edge (move-to the
start vertex, then a line-to for Plain edges, or the three
cubic-Bezier-curve commands through (start_control, left_nubbin_control,
nubbin_start), (right_nubbin_control, nubbin_end), (end_control, end)
for Tabbed edges); for width 300, height 200, 15 columns, 10 rows the
output contains exactly 325 move-to command letters and the viewport
declaration `0 0 300 200`.  (`fmt` abstracts Rust's f32 `Display`; the
hypothesis says a formatted number never contains the letter M.) -/
theorem C6_svg_structure (fmt : ℝ → String)
    (hM : ∀ r : ℝ, (fmt r).data.count 'M' = 0)
    (pick : ℕ → (s : Finset VertexIndex) → s.Nonempty → VertexIndex)
    (hpick : ∀ n s h, pick n s h ∈ s) (rng : RngState) :
    ((Puzzle.build cfg1510 pick rng).to_svg fmt).data.count 'M' = 325 ∧
    (∃ rest, (Puzzle.build cfg1510 pick rng).to_svg fmt =
      ("<svg xmlns=\"http://www.w3.org/2000/svg\" version=\"1.0\" " ++
        ("viewBox=\"0 0 " ++ fmt 300 ++ " " ++ fmt 200 ++ "\" ")) ++ rest) ∧
    (∀ v1 v2 : Point, Edge.Bumpless.svg fmt v1 v2 =
      "M " ++ (fmt v1.x ++ " " ++ fmt v1.y) ++ " L " ++
        (fmt v2.x ++ " " ++ fmt v2.y) ++ " ") ∧
    (∀ d : EdgeDesc, ∀ v1 v2 : Point, (Edge.Bumpy d).svg fmt v1 v2 =
      "M " ++ (fmt v1.x ++ " " ++ fmt v1.y) ++ " C " ++
      (fmt d.start_control.x ++ " " ++ fmt d.start_control.y) ++ " " ++
      (fmt d.left_nubbin_control.x ++ " " ++ fmt d.left_nubbin_control.y) ++ " " ++
      (fmt d.nubbin_start.x ++ " " ++ fmt d.nubbin_start.y) ++ " S " ++
      (fmt d.right_nubbin_control.x ++ " " ++ fmt d.right_nubbin_control.y) ++ " " ++
      (fmt d.nubbin_end.x ++ " " ++ fmt d.nubbin_end.y) ++ "  " ++
      (fmt d.end_control.x ++ " " ++ fmt d.end_control.y) ++ " " ++
      (fmt v2.x ++ " " ++ fmt v2.y) ++ " ") := by
  refine ⟨?_, ?_, fun v1 v2 => rfl, fun d v1 v2 => rfl⟩
  · rw [to_svg_count_M fmt hM, build_edges]
    exact (gen_edges_keys cfg1510 (gen_vertices cfg1510) pick hpick rng).2.2.2.trans
      (by decide)
  · have h300 : (Puzzle.build cfg1510 pick rng).x_mm = 300 := rfl
    have h200 : (Puzzle.build cfg1510 pick rng).y_mm = 200 := rfl
    obtain ⟨rest, hrest⟩ := to_svg_header fmt (Puzzle.build cfg1510 pick rng)
    rw [h300, h200] at hrest
    exact ⟨rest, hrest⟩

/-- Witness for C6 at the constant formatter, the least-vertex schedule
and a constant stream. -/
theorem C6_svg_structure_witness :
    ((Puzzle.build cfg1510 pickMin constRng).to_svg (fun _ => "0")).data.count 'M' =
      325 ∧
    (∃ rest, (Puzzle.build cfg1510 pickMin constRng).to_svg (fun _ => "0") =
      ("<svg xmlns=\"http://www.w3.org/2000/svg\" version=\"1.0\" " ++
        ("viewBox=\"0 0 " ++ "0" ++ " " ++ "0" ++ "\" ")) ++ rest) ∧
    (∀ v1 v2 : Point, Edge.Bumpless.svg (fun _ => "0") v1 v2 =
      "M " ++ ("0" ++ " " ++ "0") ++ " L " ++ ("0" ++ " " ++ "0") ++ " ") ∧
    (∀ d : EdgeDesc, ∀ v1 v2 : Point, (Edge.Bumpy d).svg (fun _ => "0") v1 v2 =
      "M " ++ ("0" ++ " " ++ "0") ++ " C " ++
      ("0" ++ " " ++ "0") ++ " " ++
      ("0" ++ " " ++ "0") ++ " " ++
      ("0" ++ " " ++ "0") ++ " S " ++
      ("0" ++ " " ++ "0") ++ " " ++
      ("0" ++ " " ++ "0") ++ "  " ++
      ("0" ++ " " ++ "0") ++ " " ++
      ("0" ++ " " ++ "0") ++ " ") :=
  C6_svg_structure (fun _ => "0")
    (fun _ => (by decide : ("0" : String).data.count 'M' = 0)) pickMin
    (fun n s h => Finset.min'_mem s h) constRng

end Puzzgen
